import Mathlib

/-!
Verification of the skypydb core (schema-managed relational store, vector
codec, function interpreter) against its natural-language specification.
The Rust sources under `src/rust` are shallowly embedded below: pure
functions become Lean functions, fallible functions return `Except`,
stateful repository code is modelled by explicit state passing, and
machine integers are modelled by `Nat`/`Int`.
-/

set_option maxHeartbeats 1000000

/-- Error taxonomy of the core (from `errors/src/lib.rs`); only the kinds
reached by the verified components are modelled.  `validation` carries the
formatted message, as the Rust constructors do. -/
inductive AppError where
  | validation (msg : String)
  | notFound (msg : String)
  | internal (msg : String)
deriving DecidableEq, Repr

/-- JSON values (`serde_json::Value`).  Objects are entry lists in insertion
order; numbers are modelled as integers (none of the verified claims
depends on float-valued payloads). -/
inductive Json where
  | null
  | bool (b : Bool)
  | num (n : Int)
  | str (s : String)
  | arr (items : List Json)
  | obj (fields : List (String × Json))
deriving Repr

mutual

/-- Decidable equality for `Json` (the nested inductive blocks automatic
derivation). -/
def jsonDecEq : (a b : Json) → Decidable (a = b)
  | .null, .null => isTrue rfl
  | .null, .bool _ => isFalse nofun
  | .null, .num _ => isFalse nofun
  | .null, .str _ => isFalse nofun
  | .null, .arr _ => isFalse nofun
  | .null, .obj _ => isFalse nofun
  | .bool _, .null => isFalse nofun
  | .bool x, .bool y =>
    match decEq x y with
    | isTrue h => isTrue (congrArg Json.bool h)
    | isFalse h => isFalse (fun hh => h (by cases hh; rfl))
  | .bool _, .num _ => isFalse nofun
  | .bool _, .str _ => isFalse nofun
  | .bool _, .arr _ => isFalse nofun
  | .bool _, .obj _ => isFalse nofun
  | .num _, .null => isFalse nofun
  | .num _, .bool _ => isFalse nofun
  | .num x, .num y =>
    match decEq x y with
    | isTrue h => isTrue (congrArg Json.num h)
    | isFalse h => isFalse (fun hh => h (by cases hh; rfl))
  | .num _, .str _ => isFalse nofun
  | .num _, .arr _ => isFalse nofun
  | .num _, .obj _ => isFalse nofun
  | .str _, .null => isFalse nofun
  | .str _, .bool _ => isFalse nofun
  | .str _, .num _ => isFalse nofun
  | .str x, .str y =>
    match decEq x y with
    | isTrue h => isTrue (congrArg Json.str h)
    | isFalse h => isFalse (fun hh => h (by cases hh; rfl))
  | .str _, .arr _ => isFalse nofun
  | .str _, .obj _ => isFalse nofun
  | .arr _, .null => isFalse nofun
  | .arr _, .bool _ => isFalse nofun
  | .arr _, .num _ => isFalse nofun
  | .arr _, .str _ => isFalse nofun
  | .arr xs, .arr ys =>
    match jsonListDecEq xs ys with
    | isTrue h => isTrue (congrArg Json.arr h)
    | isFalse h => isFalse (fun hh => h (by cases hh; rfl))
  | .arr _, .obj _ => isFalse nofun
  | .obj _, .null => isFalse nofun
  | .obj _, .bool _ => isFalse nofun
  | .obj _, .num _ => isFalse nofun
  | .obj _, .str _ => isFalse nofun
  | .obj _, .arr _ => isFalse nofun
  | .obj xs, .obj ys =>
    match jsonEntriesDecEq xs ys with
    | isTrue h => isTrue (congrArg Json.obj h)
    | isFalse h => isFalse (fun hh => h (by cases hh; rfl))

/-- Decidable equality for `Json` arrays. -/
def jsonListDecEq : (a b : List Json) → Decidable (a = b)
  | [], [] => isTrue rfl
  | [], _ :: _ => isFalse nofun
  | _ :: _, [] => isFalse nofun
  | x :: xs, y :: ys =>
    match jsonDecEq x y, jsonListDecEq xs ys with
    | isTrue h1, isTrue h2 => isTrue (by rw [h1, h2])
    | isFalse h1, _ => isFalse (fun hh => h1 (by cases hh; rfl))
    | _, isFalse h2 => isFalse (fun hh => h2 (by cases hh; rfl))

/-- Decidable equality for `Json` object entry lists. -/
def jsonEntriesDecEq : (a b : List (String × Json)) → Decidable (a = b)
  | [], [] => isTrue rfl
  | [], _ :: _ => isFalse nofun
  | _ :: _, [] => isFalse nofun
  | (k1, v1) :: xs, (k2, v2) :: ys =>
    match decEq k1 k2, jsonDecEq v1 v2, jsonEntriesDecEq xs ys with
    | isTrue h1, isTrue h2, isTrue h3 => isTrue (by rw [h1, h2, h3])
    | isFalse h1, _, _ => isFalse (fun hh => h1 (by cases hh; rfl))
    | _, isFalse h2, _ => isFalse (fun hh => h2 (by cases hh; rfl))
    | _, _, isFalse h3 => isFalse (fun hh => h3 (by cases hh; rfl))

end

instance : DecidableEq Json := jsonDecEq

/-- Returns `true` when an `Except` is an error. -/
def isErr {ε α : Type} : Except ε α → Bool
  | .error _ => true
  | .ok _ => false

/- ### Embedding codec (`src/rust/vector/src/codec.rs`)

An `f32` is modelled by its 32-bit pattern (a `Nat` below `2^32`);
`f32::to_le_bytes` / `f32::from_le_bytes` are exact bit-level inverses, so
the byte-level behaviour of the codec is captured exactly. -/

/-- `f32::to_le_bytes` on the 32-bit pattern `x`: four little-endian bytes. -/
def toLeBytes (x : Nat) : List Nat :=
  [x % 256, x / 256 % 256, x / 65536 % 256, x / 16777216 % 256]

/-- `f32::from_le_bytes` on four little-endian bytes. -/
def fromLeBytes (b0 b1 b2 b3 : Nat) : Nat :=
  b0 + 256 * b1 + 65536 * b2 + 16777216 * b3

/-- `encode_embedding`: the concatenation of the little-endian bytes of
each value, in order. -/
def encode_embedding : List Nat → List Nat
  | [] => []
  | v :: rest => toLeBytes v ++ encode_embedding rest

/-- The `chunks_exact(4)` decoding loop of `decode_embedding`. -/
def decodeChunks : List Nat → List Nat
  | b0 :: b1 :: b2 :: b3 :: rest => fromLeBytes b0 b1 b2 b3 :: decodeChunks rest
  | _ => []

/-- `decode_embedding`: fails when the length is not a multiple of four,
otherwise decodes each 4-byte chunk. -/
def decode_embedding (bytes : List Nat) : Except String (List Nat) :=
  if bytes.length % 4 ≠ 0 then
    .error "embedding blob length is not a multiple of 4"
  else
    .ok (decodeChunks bytes)

/-- A finite `f32`: the exponent bits of the pattern are not all ones. -/
def isFiniteF32 (x : Nat) : Bool :=
  x / 8388608 % 256 != 255

theorem fromLeBytes_toLeBytes (x : Nat) (h : x < 4294967296) :
    fromLeBytes (x % 256) (x / 256 % 256) (x / 65536 % 256) (x / 16777216 % 256) = x := by
  unfold fromLeBytes
  omega

theorem encode_embedding_length (v : List Nat) :
    (encode_embedding v).length = 4 * v.length := by
  induction v with
  | nil => rfl
  | cons x rest ih =>
    simp [encode_embedding, toLeBytes, ih]
    omega

theorem decodeChunks_encode (v : List Nat) (h : ∀ x ∈ v, x < 4294967296) :
    decodeChunks (encode_embedding v) = v := by
  induction v with
  | nil => rfl
  | cons x rest ih =>
    have hx : x < 4294967296 := h x (by simp)
    have hrest : ∀ y ∈ rest, y < 4294967296 := fun y hy => h y (by simp [hy])
    have hstep : encode_embedding (x :: rest) =
        x % 256 :: x / 256 % 256 :: x / 65536 % 256 :: x / 16777216 % 256 ::
          encode_embedding rest := rfl
    rw [hstep]
    simp only [decodeChunks]
    rw [fromLeBytes_toLeBytes x hx, ih hrest]

/-- C5: for every finite `f32` vector (bit patterns below `2^32` with a
non-saturated exponent), `decode_embedding (encode_embedding v) = v`; and
decoding a byte buffer fails exactly when its length is not a multiple of
four. -/
theorem c5_codec_round_trip :
    (∀ v : List Nat, (∀ x ∈ v, x < 4294967296 ∧ isFiniteF32 x = true) →
      decode_embedding (encode_embedding v) = .ok v) ∧
    (∀ b : List Nat, isErr (decode_embedding b) = true ↔ b.length % 4 ≠ 0) := by
  constructor
  · intro v h
    have hlt : ∀ x ∈ v, x < 4294967296 := fun x hx => (h x hx).1
    unfold decode_embedding
    rw [encode_embedding_length]
    simp [decodeChunks_encode v hlt]
  · intro b
    unfold decode_embedding
    by_cases h : b.length % 4 = 0 <;> simp [h, isErr]

/-- Witness for C5 at concrete inputs: the two-element vector with the bit
patterns of `1.0f32` and `-2.5f32` round-trips, and a 3-byte buffer is
rejected. -/
theorem c5_codec_round_trip_witness :
    decode_embedding (encode_embedding [1065353216, 3223322624]) =
      .ok [1065353216, 3223322624] ∧
    (isErr (decode_embedding [7, 8, 9]) = true ↔ [7, 8, 9].length % 4 ≠ 0) :=
  ⟨c5_codec_round_trip.1 [1065353216, 3223322624] (by decide),
   c5_codec_round_trip.2 [7, 8, 9]⟩

/- ### Identifier validators (`src/rust/relational/src/domain/relational/validator.rs`) -/

/-- ASCII letter, as the regex classes `[a-zA-Z]` match. -/
def isAsciiLetter (c : Char) : Bool :=
  (65 ≤ c.toNat && c.toNat ≤ 90) || (97 ≤ c.toNat && c.toNat ≤ 122)

/-- ASCII digit, as the regex class `[0-9]` matches. -/
def isAsciiDigit (c : Char) : Bool :=
  48 ≤ c.toNat && c.toNat ≤ 57

/-- A character matched by the regex class `[a-zA-Z0-9_]`. -/
def isIdentTail (c : Char) : Bool :=
  isAsciiLetter c || isAsciiDigit c || c.toNat == 95

/-- The regex `^[a-zA-Z][a-zA-Z0-9_]*$` used by `validate_table_name`. -/
def tableNameRegexMatch (s : String) : Bool :=
  match s.data with
  | [] => false
  | c :: rest => isAsciiLetter c && rest.all isIdentTail

/-- The regex `^[a-zA-Z_][a-zA-Z0-9_]*$` used by `validate_identifier`
(note the underscore in the first character class). -/
def identifierRegexMatch (s : String) : Bool :=
  match s.data with
  | [] => false
  | c :: rest => (isAsciiLetter c || c.toNat == 95) && rest.all isIdentTail

/-- `validate_table_name`: regex check, validation error on mismatch. -/
def validate_table_name (tableName : String) : Except AppError Unit :=
  if !tableNameRegexMatch tableName then
    .error (.validation ("invalid table name '" ++ tableName ++ "'"))
  else
    .ok ()

/-- `validate_identifier`: regex check, validation error on mismatch. -/
def validate_identifier (identifier : String) : Except AppError Unit :=
  if !identifierRegexMatch identifier then
    .error (.validation ("invalid identifier '" ++ identifier ++ "'"))
  else
    .ok ()

/-- Follows the claimed regex `^[A-Za-z][A-Za-z0-9_]*$` from the spec
sentence (first character a letter, no leading underscore), to be compared
with the code-side acceptance sets. -/
def specClaimedNameRegexMatch (s : String) : Bool :=
  match s.data with
  | [] => false
  | c :: rest => isAsciiLetter c && rest.all isIdentTail

/-- C2 counterexample: `validate_identifier "_x"` succeeds although `"_x"`
does not match the claimed regex `^[A-Za-z][A-Za-z0-9_]*$` (it begins
with an underscore, which the claim says is never accepted). -/
theorem c2_counterexample :
    validate_identifier "_x" = .ok () ∧ specClaimedNameRegexMatch "_x" = false := by
  constructor
  · rfl
  · rfl

/-- C2 amended: `validate_table_name` accepts exactly the strings matching
`^[A-Za-z][A-Za-z0-9_]*$` (the claimed regex), while `validate_identifier`
accepts exactly `^[A-Za-z_][A-Za-z0-9_]*$` — a leading underscore is
accepted for identifiers; a leading digit is rejected by both. -/
theorem c2_validators_acceptance :
    (∀ s, validate_table_name s = .ok () ↔ specClaimedNameRegexMatch s = true) ∧
    (∀ s, validate_identifier s = .ok () ↔ identifierRegexMatch s = true) ∧
    (∀ s c rest, s.data = c :: rest → isAsciiDigit c = true →
      validate_identifier s =
        .error (.validation ("invalid identifier '" ++ s ++ "'")) ∧
      validate_table_name s =
        .error (.validation ("invalid table name '" ++ s ++ "'"))) := by
  have hsame : ∀ s, specClaimedNameRegexMatch s = tableNameRegexMatch s := by
    intro s
    unfold specClaimedNameRegexMatch tableNameRegexMatch
    rfl
  refine ⟨?_, ?_, ?_⟩
  · intro s
    rw [hsame]
    unfold validate_table_name
    cases h : tableNameRegexMatch s <;> simp [h]
  · intro s
    unfold validate_identifier
    cases h : identifierRegexMatch s <;> simp [h]
  · intro s c rest hdata hdigit
    have hletter : isAsciiLetter c = false := by
      unfold isAsciiDigit at hdigit
      simp only [Bool.and_eq_true, decide_eq_true_eq] at hdigit
      unfold isAsciiLetter
      simp only [Bool.or_eq_false_iff, Bool.and_eq_false_iff,
        decide_eq_false_iff_not]
      omega
    have hund : (c.toNat == 95) = false := by
      unfold isAsciiDigit at hdigit
      simp only [Bool.and_eq_true, decide_eq_true_eq] at hdigit
      simp only [beq_eq_false_iff_ne, ne_eq]
      omega
    have hident : identifierRegexMatch s = false := by
      unfold identifierRegexMatch
      rw [hdata]
      simp [hletter, hund]
    have htable : tableNameRegexMatch s = false := by
      unfold tableNameRegexMatch
      rw [hdata]
      simp [hletter]
    constructor
    · unfold validate_identifier
      simp [hident]
    · unfold validate_table_name
      simp [htable]

/-- Witness for C2 amended at concrete inputs: `"users"` is accepted by
both validators, `"_x"` is accepted as an identifier, and `"9a"`
(leading digit) is rejected by both. -/
theorem c2_validators_acceptance_witness :
    (validate_table_name "users" = .ok () ↔
      specClaimedNameRegexMatch "users" = true) ∧
    (validate_identifier "_x" = .ok () ↔ identifierRegexMatch "_x" = true) ∧
    (validate_identifier "9a" =
        .error (.validation ("invalid identifier '" ++ "9a" ++ "'")) ∧
      validate_table_name "9a" =
        .error (.validation ("invalid table name '" ++ "9a" ++ "'"))) :=
  ⟨c2_validators_acceptance.1 "users", c2_validators_acceptance.2.1 "_x",
   c2_validators_acceptance.2.2 "9a" '9' ['a'] rfl (by decide)⟩

/- ### Selector validation and limits (`validator.rs`) -/

/-- `validate_id_where_xor`: exactly one of `id` / `where` must be given. -/
def validate_id_where_xor (id : Option String) (whereClausePresent : Bool) :
    Except AppError Unit :=
  match id, whereClausePresent with
  | some _, false => .ok ()
  | none, true => .ok ()
  | some _, true =>
    .error (.validation "exactly one of 'id' or 'where' must be provided (not both)")
  | none, false =>
    .error (.validation "exactly one of 'id' or 'where' must be provided")

/-- `effective_limit(requested, max, default)`:
`min(requested.unwrap_or(default), max)`. -/
def effective_limit (requested : Option Nat) (maxLimit defaultLimit : Nat) : Nat :=
  min (requested.getD defaultLimit) maxLimit

/- ### Relational query options (`relational_repo.rs`, `query_planner.rs`) -/

/-- Sort descriptor (`OrderByClause`). -/
structure OrderByClause where
  field : String
  direction : Option String
deriving DecidableEq, Repr

/-- `RelationalQueryOptions`: filter, ordering, paging. -/
structure RelationalQueryOptions where
  whereClause : Option Json := none
  orderBy : List OrderByClause := []
  limit : Option Nat := none
  offset : Option Nat := none
deriving DecidableEq, Repr

/-- A public row as `query` returns it. -/
abbrev Row := List (String × Json)

/-- Modelled from the spec: MySQL (an external collaborator) executing the
SQL that `query` builds — `SELECT * FROM t [WHERE …] LIMIT ? OFFSET ?`
(§4.6.5).  The compiled WHERE predicate is abstracted as `pred`;
`LIMIT`/`OFFSET` truncate the matching row list.  The bound limit is
`effective_limit(options.limit, max_query_limit, 100)` and the offset
`options.offset.unwrap_or(0)`, exactly as `query` computes them
(`relational_repo.rs` lines 320-333).  Ordering is not modelled because
`move_rows` always passes an empty `order_by`. -/
def queryRowSelection (maxQueryLimit : Nat) (tableRows : List Row)
    (pred : Row → Bool) (options : RelationalQueryOptions) : List Row :=
  let limit := effective_limit options.limit maxQueryLimit 100
  let offset := options.offset.getD 0
  ((tableRows.filter pred).drop offset).take limit

/-- The source-row selection of `move_rows` (`relational_repo.rs` lines
221-240): `query` with `limit: None`, `offset: None`, empty `order_by`;
when an `id` selector was given, the result is then filtered to the rows
whose `_id` equals it. -/
def move_selected_rows (maxQueryLimit : Nat) (sourceRows : List Row)
    (pred : Row → Bool) (idSelector : Option String) : List Row :=
  let selected :=
    queryRowSelection maxQueryLimit sourceRows pred
      { whereClause := none, orderBy := [], limit := none, offset := none }
  match idSelector with
  | some id => selected.filter (fun row => row.lookup "_id" == some (Json.str id))
  | none => selected

/-- C1 counterexample: with `max_query_limit = 500` and 101 rows all
matching the selector, the row `{i: 100}` matches but is not part of the
move batch — the selection is truncated to the default limit of 100, so
the limit is not bypassed. -/
theorem c1_counterexample :
    [("i", Json.num 100)] ∈
      (List.range 101).map (fun i => [("i", (Json.num i : Json))]) ∧
    [("i", Json.num 100)] ∉
      move_selected_rows 500
        ((List.range 101).map (fun i => [("i", (Json.num i : Json))]))
        (fun _ => true) none := by
  constructor
  · decide
  · decide

/-- C1 amended: `move_rows` selects its source rows through `query` with
`limit: None`, so the batch is the matching rows truncated to
`effective_limit(None, max_query_limit, 100) = min(100, max_query_limit)`;
rows beyond that bound are silently left out of the move. -/
theorem c1_move_selection_truncated :
    ∀ (maxQueryLimit : Nat) (sourceRows : List Row) (pred : Row → Bool),
      move_selected_rows maxQueryLimit sourceRows pred none =
        (sourceRows.filter pred).take
          (effective_limit none maxQueryLimit 100) ∧
      (move_selected_rows maxQueryLimit sourceRows pred none).length ≤
        min 100 maxQueryLimit := by
  intro maxQueryLimit sourceRows pred
  constructor
  · simp [move_selected_rows, queryRowSelection]
  · simp only [move_selected_rows, queryRowSelection, effective_limit,
      Option.getD, List.drop_zero]
    exact le_trans (List.length_take_le _ _) (le_refl _)

/- ### Move prelude (`relational_repo.rs` lines 205-215 and 525-537) -/

/-- The validation prelude shared verbatim by `move_rows` and
`move_rows_in_transaction`, followed by an abstract continuation `rest`
standing for everything from the schema lookup onward (all database reads
and writes).  The database is threaded explicitly so that "unchanged"
is expressible. -/
def move_rows_model {DB : Type} (rest : DB → Except AppError Nat × DB)
    (fromTable toTable : String) (idSelector : Option String)
    (whereClausePresent : Bool) (db : DB) : Except AppError Nat × DB :=
  match validate_table_name fromTable with
  | .error e => (.error e, db)
  | .ok () =>
    match validate_table_name toTable with
    | .error e => (.error e, db)
    | .ok () =>
      if fromTable == toTable then
        (.error (.validation "fromTable and toTable must differ"), db)
      else
        match validate_id_where_xor idSelector whereClausePresent with
        | .error e => (.error e, db)
        | .ok () => rest db

/-- C9 counterexample: a move whose source and target are both the (equal)
invalid name `"9bad"` fails with the table-name validation error, not with
`'fromTable and toTable must differ'` as the claim states. -/
theorem c9_counterexample :
    (@move_rows_model Nat (fun db => (.ok 0, db + 1))
        "9bad" "9bad" none true 0).1 =
      .error (.validation "invalid table name '9bad'") ∧
    AppError.validation "invalid table name '9bad'" ≠
      AppError.validation "fromTable and toTable must differ" := by
  constructor
  · rfl
  · decide

/-- C9 amended: whenever source and target table names are equal, the move
fails with some validation error before any database access (the state is
returned unchanged and the continuation never runs); when the shared name
moreover passes table-name validation, the error is exactly
`'fromTable and toTable must differ'`. -/
theorem c9_same_table_move_rejected :
    ∀ (DB : Type) (rest : DB → Except AppError Nat × DB) (tbl : String)
      (idSelector : Option String) (wherePresent : Bool) (db : DB),
      (∃ msg, (move_rows_model rest tbl tbl idSelector wherePresent db).1 =
        .error (.validation msg)) ∧
      (move_rows_model rest tbl tbl idSelector wherePresent db).2 = db ∧
      (tableNameRegexMatch tbl = true →
        (move_rows_model rest tbl tbl idSelector wherePresent db).1 =
          .error (.validation "fromTable and toTable must differ")) := by
  intro DB rest tbl idSelector wherePresent db
  unfold move_rows_model validate_table_name
  cases h : tableNameRegexMatch tbl with
  | false =>
    refine ⟨⟨"invalid table name '" ++ tbl ++ "'", ?_⟩, ?_, ?_⟩ <;> simp [h]
  | true =>
    refine ⟨⟨"fromTable and toTable must differ", ?_⟩, ?_, ?_⟩ <;> simp [h]

/-- Witness for C9 amended at the valid table name `"users"`. -/
theorem c9_same_table_move_rejected_witness :
    (@move_rows_model Nat (fun db => (.ok 0, db + 1))
        "users" "users" none true 0).1 =
      .error (.validation "fromTable and toTable must differ") ∧
    (@move_rows_model Nat (fun db => (.ok 0, db + 1))
        "users" "users" none true 0).2 = 0 :=
  ⟨(c9_same_table_move_rejected Nat (fun db => (.ok 0, db + 1))
      "users" none true 0).2.2 (by rfl),
   (c9_same_table_move_rejected Nat (fun db => (.ok 0, db + 1))
      "users" none true 0).2.1⟩

/- ### `first` / `first_in_transaction` (`relational_repo.rs` 364-375, 686-700) -/

/-- `first`: sets `limit = Some(1)` and `offset = Some(0)` on its options,
delegates to `query` (abstracted as `q`), and returns `rows.pop()` — the
last element of the result list, if any.  `first_in_transaction` is the
same code against the transactional `query_in_transaction`; the abstract
`q` absorbs the difference. -/
def first_model (q : String → RelationalQueryOptions → Except AppError (List Json))
    (tableName : String) (options : RelationalQueryOptions) :
    Except AppError (Option Json) :=
  let options := { options with limit := some 1, offset := some 0 }
  match q tableName options with
  | .error e => .error e
  | .ok rows => .ok rows.getLast?

/-- C10: `first` always calls `query` with `limit = 1` and `offset = 0`,
keeping only the caller's filter and ordering; any caller-supplied limit
or offset is ignored; the result is the popped last element of the row
list, or null (`none`) when no row matches. -/
theorem c10_first_forces_limit_one :
    ∀ (q : String → RelationalQueryOptions → Except AppError (List Json))
      (tableName : String) (options : RelationalQueryOptions),
      first_model q tableName options =
        (match q tableName
            { whereClause := options.whereClause, orderBy := options.orderBy,
              limit := some 1, offset := some 0 } with
         | .error e => .error e
         | .ok rows => .ok rows.getLast?) ∧
      (∀ l o l2 o2,
        first_model q tableName { options with limit := l, offset := o } =
          first_model q tableName { options with limit := l2, offset := o2 }) ∧
      (q tableName
          { whereClause := options.whereClause, orderBy := options.orderBy,
            limit := some 1, offset := some 0 } = .ok [] →
        first_model q tableName options = .ok none) := by
  intro q tableName options
  refine ⟨rfl, fun l o l2 o2 => rfl, fun h => ?_⟩
  unfold first_model
  simp only []
  rw [h]
  rfl

/-- Witness for C10 at a concrete empty-result query function. -/
theorem c10_first_forces_limit_one_witness :
    first_model (fun _ _ => .ok []) "users"
        { whereClause := none, orderBy := [], limit := some 7, offset := some 3 } =
      .ok none :=
  (c10_first_forces_limit_one (fun _ _ => .ok []) "users"
      { whereClause := none, orderBy := [], limit := some 7, offset := some 3 }).2.2
    rfl

/- ### Schema types (`common/src/schema/types.rs`) -/

/-- Supported schema field types. -/
inductive FieldType where
  | string
  | number
  | boolean
  | id
  | object
  | optional
deriving DecidableEq, Repr

/-- Field definition with type metadata and optional nesting
(`FieldDefinition`): `table` is the FK target of `id` fields, `shape` the
nested fields of `object` fields, `inner` the wrapped type of `optional`
fields. -/
inductive FieldDefinition where
  | mk (fieldType : FieldType) (table : Option String)
      (shape : List (String × FieldDefinition)) (inner : Option FieldDefinition)

/-- Projection of the `type` component. -/
def FieldDefinition.fieldType : FieldDefinition → FieldType
  | .mk t _ _ _ => t

/-- Projection of the FK target table. -/
def FieldDefinition.table : FieldDefinition → Option String
  | .mk _ t _ _ => t

/-- Projection of the nested object shape. -/
def FieldDefinition.shape : FieldDefinition → List (String × FieldDefinition)
  | .mk _ _ s _ => s

/-- Projection of the wrapped optional type. -/
def FieldDefinition.inner : FieldDefinition → Option FieldDefinition
  | .mk _ _ _ i => i

/-- `FieldDefinition::is_optional`. -/
def FieldDefinition.isOptional (fd : FieldDefinition) : Bool :=
  fd.fieldType == .optional

/-- `FieldDefinition::unwrap_base`: strips one `optional` wrapper when an
inner definition is present. -/
def FieldDefinition.unwrapBase : FieldDefinition → FieldDefinition
  | .mk .optional _ _ (some innerDef) => innerDef
  | fd => fd

/-- Table definition: fields and index definitions, each keyed by name.
`BTreeMap`s are modelled as association lists in key order. -/
structure TableDefinition where
  fields : List (String × FieldDefinition)
  indexes : List (String × List String)

/- ### Row mapping (`query_planner.rs` lines 63-94) -/

/-- The per-field loop of `map_row_to_target_payload`: for each target
field take `field_map[target]` (falling back to the target name), look it
up in the source row; else `defaults[target]`; else null when optional;
otherwise fail validation. -/
def map_row_fields (sourceRow : Row) (fieldMap : List (String × String))
    (defaults : List (String × Json)) :
    List (String × FieldDefinition) → Except AppError Row
  | [] => .ok []
  | (targetField, fd) :: rest =>
    let mappedSourceKey := (fieldMap.lookup targetField).getD targetField
    match sourceRow.lookup mappedSourceKey with
    | some value =>
      (map_row_fields sourceRow fieldMap defaults rest).map
        (fun payload => (targetField, value) :: payload)
    | none =>
      match defaults.lookup targetField with
      | some defaultValue =>
        (map_row_fields sourceRow fieldMap defaults rest).map
          (fun payload => (targetField, defaultValue) :: payload)
      | none =>
        if fd.isOptional then
          (map_row_fields sourceRow fieldMap defaults rest).map
            (fun payload => (targetField, Json.null) :: payload)
        else
          .error (.validation
            ("cannot map source row: missing required target field '" ++
              targetField ++ "'"))

/-- `map_row_to_target_payload`: maps a source row into a target payload
for move/migration, iterating the target fields in key order. -/
def map_row_to_target_payload (sourceRow : Row) (target : TableDefinition)
    (fieldMap : List (String × String)) (defaults : List (String × Json)) :
    Except AppError Row :=
  map_row_fields sourceRow fieldMap defaults target.fields

/-- Follows the claim's description of the binding for one target field:
source value at `field_map[target]` (falling back to the target name) when
present, else `defaults[target]`, else null when the field is optional,
else no binding (failure). -/
def c7ExpectedBinding (sourceRow : Row) (fieldMap : List (String × String))
    (defaults : List (String × Json)) (targetField : String)
    (fd : FieldDefinition) : Option Json :=
  match sourceRow.lookup ((fieldMap.lookup targetField).getD targetField) with
  | some value => some value
  | none =>
    match defaults.lookup targetField with
    | some defaultValue => some defaultValue
    | none => if fd.isOptional then some Json.null else none

theorem map_row_fields_ok (sourceRow : Row) (fieldMap : List (String × String))
    (defaults : List (String × Json)) :
    ∀ fields : List (String × FieldDefinition),
      (∀ fd ∈ fields,
        (c7ExpectedBinding sourceRow fieldMap defaults fd.1 fd.2).isSome) →
      map_row_fields sourceRow fieldMap defaults fields =
        .ok (fields.map fun fd =>
          (fd.1, (c7ExpectedBinding sourceRow fieldMap defaults fd.1 fd.2).getD
            Json.null)) := by
  intro fields
  induction fields with
  | nil => intro _; rfl
  | cons head rest ih =>
    intro h
    obtain ⟨targetField, fd⟩ := head
    have hhead := h (targetField, fd) (by simp)
    have hrest : ∀ fd ∈ rest,
        (c7ExpectedBinding sourceRow fieldMap defaults fd.1 fd.2).isSome = true :=
      fun fd hf => h fd (List.mem_cons_of_mem _ hf)
    simp only [map_row_fields, List.map_cons]
    cases hsrc : sourceRow.lookup ((fieldMap.lookup targetField).getD targetField) with
    | some value =>
      have hexp : c7ExpectedBinding sourceRow fieldMap defaults targetField fd =
          some value := by
        unfold c7ExpectedBinding
        rw [hsrc]
      rw [ih hrest]
      simp [hsrc, hexp, Except.map]
    | none =>
      cases hdef : defaults.lookup targetField with
      | some defaultValue =>
        have hexp : c7ExpectedBinding sourceRow fieldMap defaults targetField fd =
            some defaultValue := by
          unfold c7ExpectedBinding
          rw [hsrc, hdef]
        rw [ih hrest]
        simp [hsrc, hdef, hexp, Except.map]
      | none =>
        cases hopt : fd.isOptional with
        | false =>
          exfalso
          unfold c7ExpectedBinding at hhead
          rw [hsrc, hdef] at hhead
          simp [hopt] at hhead
        | true =>
          have hexp : c7ExpectedBinding sourceRow fieldMap defaults targetField fd =
              some Json.null := by
            unfold c7ExpectedBinding
            rw [hsrc, hdef]
            simp [hopt]
          rw [ih hrest]
          simp [hsrc, hdef, hopt, hexp, Except.map]

theorem map_row_fields_err (sourceRow : Row) (fieldMap : List (String × String))
    (defaults : List (String × Json)) :
    ∀ fields : List (String × FieldDefinition),
      (∃ fd ∈ fields,
        c7ExpectedBinding sourceRow fieldMap defaults fd.1 fd.2 = none) →
      ∃ f, map_row_fields sourceRow fieldMap defaults fields =
        .error (.validation
          ("cannot map source row: missing required target field '" ++ f ++ "'")) := by
  intro fields
  induction fields with
  | nil => intro h; simp at h
  | cons head rest ih =>
    intro h
    obtain ⟨targetField, fd⟩ := head
    simp only [map_row_fields]
    by_cases hhead :
        c7ExpectedBinding sourceRow fieldMap defaults targetField fd = none
    · unfold c7ExpectedBinding at hhead
      cases hsrc : sourceRow.lookup ((fieldMap.lookup targetField).getD targetField) with
      | some value => rw [hsrc] at hhead; simp at hhead
      | none =>
        rw [hsrc] at hhead
        cases hdef : defaults.lookup targetField with
        | some defaultValue => rw [hdef] at hhead; simp at hhead
        | none =>
          rw [hdef] at hhead
          cases hopt : fd.isOptional with
          | true => rw [hopt] at hhead; simp at hhead
          | false =>
            refine ⟨targetField, ?_⟩
            simp [hsrc, hdef, hopt]
    · have hrest : ∃ fd ∈ rest,
          c7ExpectedBinding sourceRow fieldMap defaults fd.1 fd.2 = none := by
        obtain ⟨fd2, hmem, hnone⟩ := h
        rcases List.mem_cons.mp hmem with heq | hmem2
        · exfalso
          apply hhead
          rw [heq] at hnone
          simpa using hnone
        · exact ⟨fd2, hmem2, hnone⟩
      obtain ⟨f, hf⟩ := ih hrest
      refine ⟨f, ?_⟩
      cases hsrc : sourceRow.lookup ((fieldMap.lookup targetField).getD targetField) with
      | some value => simp [hsrc, hf, Except.map]
      | none =>
        cases hdef : defaults.lookup targetField with
        | some defaultValue => simp [hsrc, hdef, hf, Except.map]
        | none =>
          cases hopt : fd.isOptional with
          | true => simp [hsrc, hdef, hopt, hf, Except.map]
          | false =>
            exfalso
            apply hhead
            unfold c7ExpectedBinding
            simp [hsrc, hdef, hopt]

/-- C7: row mapping binds each target field to the source value at
`field_map[target]` (falling back to the target name) when that key is in
the source row, else to `defaults[target]`, else to null when the field is
optional; and when none of the three applies for some target field the
whole mapping fails with a validation error. -/
theorem c7_map_row_to_target_payload_spec :
    ∀ (sourceRow : Row) (target : TableDefinition)
      (fieldMap : List (String × String)) (defaults : List (String × Json)),
      ((∀ fd ∈ target.fields,
          (c7ExpectedBinding sourceRow fieldMap defaults fd.1 fd.2).isSome) →
        map_row_to_target_payload sourceRow target fieldMap defaults =
          .ok (target.fields.map fun fd =>
            (fd.1,
              (c7ExpectedBinding sourceRow fieldMap defaults fd.1 fd.2).getD
                Json.null))) ∧
      ((∃ fd ∈ target.fields,
          c7ExpectedBinding sourceRow fieldMap defaults fd.1 fd.2 = none) →
        ∃ f, map_row_to_target_payload sourceRow target fieldMap defaults =
          .error (.validation
            ("cannot map source row: missing required target field '" ++
              f ++ "'"))) :=
  fun sourceRow target fieldMap defaults =>
    ⟨map_row_fields_ok sourceRow fieldMap defaults target.fields,
     map_row_fields_err sourceRow fieldMap defaults target.fields⟩

/-- Witness for C7: a two-field target (required `title` mapped through
`field_map`, optional `done_at` absent everywhere) maps a concrete row as
the claim describes; a target with a required, unmapped field fails. -/
theorem c7_map_row_to_target_payload_spec_witness :
    map_row_to_target_payload [("name", Json.str "Ship")]
        ⟨[("title", .mk .string none [] none),
          ("done_at", .mk .optional none []
            (some (.mk .string none [] none)))], []⟩
        [("title", "name")] [] =
      .ok [("title", Json.str "Ship"), ("done_at", Json.null)] ∧
    (∃ f, map_row_to_target_payload [] ⟨[("title", .mk .string none [] none)], []⟩ [] [] =
      .error (.validation
        ("cannot map source row: missing required target field '" ++ f ++ "'"))) := by
  constructor
  · exact (c7_map_row_to_target_payload_spec [("name", Json.str "Ship")]
      ⟨[("title", .mk .string none [] none),
        ("done_at", .mk .optional none [] (some (.mk .string none [] none)))], []⟩
      [("title", "name")] []).1 (by decide)
  · exact (c7_map_row_to_target_payload_spec []
      ⟨[("title", .mk .string none [] none)], []⟩ [] []).2
      ⟨("title", .mk .string none [] none), by simp, by rfl⟩

/- ### Schema signature (`common/src/schema/signature.rs`) -/

/-- `Vec::join(sep)` on strings. -/
def sjoin (sep : String) : List String → String
  | [] => ""
  | [x] => x
  | x :: y :: rest => x ++ sep ++ sjoin sep (y :: rest)

/-- The boolean total lexicographic order `Vec::sort` uses on strings. -/
def strLe (a b : String) : Bool :=
  decide (a ≤ b)

mutual

/-- `canonicalize_value`: scalars serialize directly (string escaping is
omitted — the keys and scalars of a schema document never need it and the
claim does not depend on it); arrays keep order; objects canonicalize
entries as `"key":value` strings and sort them.  The `Result` in the Rust
code can only fail in `serde_json::to_string` on scalars, which cannot
happen, so the model is total. -/
def canonicalize_value : Json → String
  | .null => "null"
  | .bool b => if b then "true" else "false"
  | .num n => toString n
  | .str s => "\"" ++ s ++ "\""
  | .arr items => "[" ++ sjoin "," (canonicalizeItems items) ++ "]"
  | .obj fields =>
    "\x7b" ++ sjoin "," ((canonicalizeEntries fields).mergeSort strLe) ++ "\x7d"

/-- The array branch of `canonicalize_value`. -/
def canonicalizeItems : List Json → List String
  | [] => []
  | item :: rest => canonicalize_value item :: canonicalizeItems rest

/-- The object-entry mapping of `canonicalize_value`:
`format!("\"{}\":{}", key, canonical)` for each entry, in entry order
(sorting happens at the call site). -/
def canonicalizeEntries : List (String × Json) → List String
  | [] => []
  | (key, value) :: rest =>
    ("\"" ++ key ++ "\":" ++ canonicalize_value value) :: canonicalizeEntries rest

end

/-- One hexadecimal digit. -/
def hexDigitChar (n : Nat) : Char :=
  if n < 10 then Char.ofNat (48 + n) else Char.ofNat (87 + n)

/-- `format!("\x7b:016x\x7d", n)`: 16 zero-padded lowercase hex digits of a
64-bit value. -/
def hexPad16 (n : Nat) : String :=
  let digits := (Nat.toDigits 16 (n % 18446744073709551616)).map
    (fun c => c)
  String.mk (List.replicate (16 - digits.length) '0' ++ digits)

/-- `schema_signature`: canonical JSON of the document, hashed, formatted
as 16 hex digits.  The std `DefaultHasher` lives outside the repository,
so the 64-bit hash is a parameter; the document is taken after
`serde_json::to_value` serialization, i.e. as a `Json` value. -/
def schema_signature (hasher : String → Nat) (doc : Json) : String :=
  hexPad16 (hasher (canonicalize_value doc))

mutual

/-- Follows the claim: two JSON values are equal up to the ordering of
object keys at every nesting level.  Scalars and array orders must agree;
object entry lists must match up to permutation (entries pair up by equal
key and equivalent value). -/
def keyEquivB : Json → Json → Bool
  | .null, .null => true
  | .bool a, .bool b => a == b
  | .num a, .num b => a == b
  | .str a, .str b => a == b
  | .arr xs, .arr ys => keyEquivListB xs ys
  | .obj fs, .obj gs => keyEquivObjB fs gs
  | _, _ => false
termination_by a _ => (sizeOf a, 0)

/-- Pointwise equivalence of arrays. -/
def keyEquivListB : List Json → List Json → Bool
  | [], [] => true
  | x :: xs, y :: ys => keyEquivB x y && keyEquivListB xs ys
  | _, _ => false
termination_by xs _ => (sizeOf xs, 0)

/-- Permutation matching of object entry lists. -/
def keyEquivObjB : List (String × Json) → List (String × Json) → Bool
  | [], [] => true
  | [], _ :: _ => false
  | (k, v) :: fs, gs =>
    match extractMatch k v gs with
    | some rest => keyEquivObjB fs rest
    | none => false
termination_by fs _ => (sizeOf fs, 0)

/-- Removes the first entry of `gs` whose key is `k` and whose value is
equivalent to `v`; fails when there is none. -/
def extractMatch (k : String) (v : Json) :
    List (String × Json) → Option (List (String × Json))
  | [] => none
  | (k2, v2) :: rest =>
    if k2 == k && keyEquivB v v2 then some rest
    else
      match extractMatch k v rest with
      | some rest' => some ((k2, v2) :: rest')
      | none => none
termination_by gs => (sizeOf v + 1, gs.length)

end

theorem strLe_trans : ∀ a b c : String, strLe a b = true → strLe b c = true →
    strLe a c = true := by
  intro a b c h1 h2
  unfold strLe at h1 h2 ⊢
  simp only [decide_eq_true_eq] at h1 h2 ⊢
  exact le_trans h1 h2

theorem strLe_total : ∀ a b : String, (strLe a b || strLe b a) = true := by
  intro a b
  unfold strLe
  rcases le_total a b with h | h <;> simp [h]

theorem mergeSort_strLe_eq_of_perm (l1 l2 : List String) (h : l1.Perm l2) :
    l1.mergeSort strLe = l2.mergeSort strLe := by
  have hs1 : List.Sorted (fun a b : String => a ≤ b) (l1.mergeSort strLe) :=
    (List.sorted_mergeSort strLe_trans strLe_total l1).imp
      (fun hab => by simpa [strLe] using hab)
  have hs2 : List.Sorted (fun a b : String => a ≤ b) (l2.mergeSort strLe) :=
    (List.sorted_mergeSort strLe_trans strLe_total l2).imp
      (fun hab => by simpa [strLe] using hab)
  exact List.eq_of_perm_of_sorted
    (((List.mergeSort_perm l1 strLe).trans h).trans
      (List.mergeSort_perm l2 strLe).symm) hs1 hs2

theorem extractMatch_perm (k : String) (v : Json)
    (hv : ∀ b, keyEquivB v b = true →
      canonicalize_value v = canonicalize_value b) :
    ∀ gs gs', extractMatch k v gs = some gs' →
      (canonicalizeEntries gs).Perm
        (("\"" ++ k ++ "\":" ++ canonicalize_value v) ::
          canonicalizeEntries gs') := by
  intro gs
  induction gs with
  | nil =>
    intro gs' h
    simp [extractMatch] at h
  | cons head rest ih =>
    intro gs' h
    obtain ⟨k2, v2⟩ := head
    rw [extractMatch] at h
    by_cases hm : (k2 == k && keyEquivB v v2) = true
    · rw [if_pos hm] at h
      injection h with h
      subst h
      simp only [Bool.and_eq_true] at hm
      have hk : k2 = k := eq_of_beq hm.1
      have hv2 : canonicalize_value v = canonicalize_value v2 := hv v2 hm.2
      simp only [canonicalizeEntries]
      rw [hk, ← hv2]
    · rw [if_neg hm] at h
      cases hrec : extractMatch k v rest with
      | none => rw [hrec] at h; cases h
      | some rest' =>
        rw [hrec] at h
        injection h with h
        subst h
        have hperm := ih rest' hrec
        simp only [canonicalizeEntries]
        exact (hperm.cons _).trans (List.Perm.swap _ _ _)

theorem keyEquivObjB_perm :
    ∀ fs gs, (∀ k v, (k, v) ∈ fs → ∀ b, keyEquivB v b = true →
        canonicalize_value v = canonicalize_value b) →
      keyEquivObjB fs gs = true →
      (canonicalizeEntries fs).Perm (canonicalizeEntries gs) := by
  intro fs
  induction fs with
  | nil =>
    intro gs _ h
    cases gs with
    | nil => simp [canonicalizeEntries]
    | cons g gs2 => rw [keyEquivObjB] at h; cases h
  | cons head rest ih =>
    intro gs hrec h
    obtain ⟨k, v⟩ := head
    rw [keyEquivObjB] at h
    cases hx : extractMatch k v gs with
    | none => rw [hx] at h; cases h
    | some gs' =>
      rw [hx] at h
      have hv : ∀ b, keyEquivB v b = true →
          canonicalize_value v = canonicalize_value b :=
        hrec k v (by simp)
      have h1 := extractMatch_perm k v hv gs gs' hx
      have h2 := ih gs' (fun k2 v2 hm => hrec k2 v2 (List.mem_cons_of_mem _ hm)) h
      simp only [canonicalizeEntries]
      exact (h2.cons _).trans h1.symm

theorem keyEquivListB_items :
    ∀ xs ys, (∀ x ∈ xs, ∀ b, keyEquivB x b = true →
        canonicalize_value x = canonicalize_value b) →
      keyEquivListB xs ys = true →
      canonicalizeItems xs = canonicalizeItems ys := by
  intro xs
  induction xs with
  | nil =>
    intro ys _ h
    cases ys with
    | nil => rfl
    | cons y ys2 => simp [keyEquivListB] at h
  | cons x rest ih =>
    intro ys hrec h
    cases ys with
    | nil => simp [keyEquivListB] at h
    | cons y ys2 =>
      rw [keyEquivListB] at h
      simp only [Bool.and_eq_true] at h
      simp only [canonicalizeItems]
      rw [hrec x (by simp) y h.1,
        ih ys2 (fun x2 hm => hrec x2 (List.mem_cons_of_mem _ hm)) h.2]

theorem json_sizeOf_pos (a : Json) : 0 < sizeOf a := by
  cases a <;> simp

theorem keyEquiv_canon_aux : ∀ n (a b : Json), sizeOf a ≤ n →
    keyEquivB a b = true → canonicalize_value a = canonicalize_value b := by
  intro n
  induction n with
  | zero =>
    intro a b hs _
    exact absurd hs (by have := json_sizeOf_pos a; omega)
  | succ n ih =>
    intro a b hs h
    cases a with
    | null =>
      cases b <;> simp [keyEquivB] at h <;> rfl
    | bool x =>
      cases b <;> simp [keyEquivB] at h
      rw [h]
    | num x =>
      cases b <;> simp [keyEquivB] at h
      rw [h]
    | str x =>
      cases b <;> simp [keyEquivB] at h
      rw [h]
    | arr xs =>
      cases b <;> simp [keyEquivB] at h
      case arr ys =>
        have hsx : sizeOf (Json.arr xs) = 1 + sizeOf xs := by simp
        have hrec : ∀ x ∈ xs, ∀ b2, keyEquivB x b2 = true →
            canonicalize_value x = canonicalize_value b2 := by
          intro x hm b2 hb2
          have h1 := List.sizeOf_lt_of_mem hm
          exact ih x b2 (by omega) hb2
        simp only [canonicalize_value]
        rw [keyEquivListB_items xs ys hrec h]
    | obj fs =>
      cases b <;> simp [keyEquivB] at h
      case obj gs =>
        have hsx : sizeOf (Json.obj fs) = 1 + sizeOf fs := by simp
        have hrec : ∀ k v, (k, v) ∈ fs → ∀ b2, keyEquivB v b2 = true →
            canonicalize_value v = canonicalize_value b2 := by
          intro k v hm b2 hb2
          have h1 := List.sizeOf_lt_of_mem hm
          have h2 : sizeOf (k, v) = 1 + sizeOf k + sizeOf v := by simp
          exact ih v b2 (by omega) hb2
        simp only [canonicalize_value]
        rw [mergeSort_strLe_eq_of_perm _ _ (keyEquivObjB_perm fs gs hrec h)]

theorem keyEquiv_canon (a b : Json) (h : keyEquivB a b = true) :
    canonicalize_value a = canonicalize_value b :=
  keyEquiv_canon_aux (sizeOf a) a b (le_refl _) h

/-- C6: for every 64-bit hasher and every pair of (serialized) schema
documents equal up to object key ordering at every nesting level, the
schema signatures coincide — the signature is invariant under key
insertion order. -/
theorem c6_schema_signature_key_order_invariant :
    ∀ (hasher : String → Nat) (a b : Json), keyEquivB a b = true →
      schema_signature hasher a = schema_signature hasher b := by
  intro hasher a b h
  unfold schema_signature
  rw [keyEquiv_canon a b h]

/-- Witness for C6: two nested documents differing only in key insertion
order hash equal under a concrete hasher. -/
theorem c6_schema_signature_key_order_invariant_witness :
    schema_signature (fun s => s.length)
        (.obj [("tables", .obj [("a", .null), ("b", .bool true)])]) =
      schema_signature (fun s => s.length)
        (.obj [("tables", .obj [("b", .bool true), ("a", .null)])]) :=
  c6_schema_signature_key_order_invariant (fun s => s.length) _ _
    (by simp [keyEquivB, keyEquivObjB, extractMatch, keyEquivListB])

/- ### Function manifest and executor (`relational/src/functions/executor.rs`) -/

/-- A manifest step: operation name, JSON payload, optional result
binding. -/
structure ManifestStep where
  op : String
  payload : List (String × Json)
  into : Option String
deriving DecidableEq, Repr

/-- `FunctionKind`: query (readFunction) or mutation (writeFunction). -/
inductive FunctionKind where
  | query
  | mutation
deriving DecidableEq, Repr

/-- A compiled manifest function: kind, argument schema, step list. -/
structure ManifestFunction where
  kind : FunctionKind
  args : List (String × FieldDefinition)
  steps : List ManifestStep

/-- `RuntimeContext`: frozen call args and the growing variable map. -/
structure RuntimeContext where
  args : List (String × Json)
  vars : List (String × Json)

/-- `BTreeMap::insert` on an association list: overwrites the key. -/
def insertVar (vars : List (String × Json)) (name : String) (value : Json) :
    List (String × Json) :=
  (name, value) :: vars.filter (fun kv => kv.1 ≠ name)

/-- The segment walk of `resolve_reference_path` (empty segments are
skipped; non-objects and missing keys fail). -/
def resolveSegments (path scope : String) :
    List String → Json → Except AppError Json
  | [], current => .ok current
  | segment :: rest, current =>
    if segment == "" then resolveSegments path scope rest current
    else
      match current with
      | .obj fields =>
        match fields.lookup segment with
        | some next => resolveSegments path scope rest next
        | none =>
          .error (.validation ("missing '" ++ path ++ "' reference path segment '" ++
            segment ++ "' in " ++ scope ++ " scope"))
      | _ =>
        .error (.validation ("cannot resolve '" ++ path ++ "': '" ++ segment ++
          "' is not an object segment"))

/-- `resolve_reference_path`: split the dotted path and walk it. -/
def resolve_reference_path (value : Json) (path scope : String) :
    Except AppError Json :=
  resolveSegments path scope (path.splitOn ".") value

mutual

/-- `evaluate_expression`: `"$arg"` resolves to the whole arg object,
`"$arg.<path>"` and `"$var.<name>[.<path>]"` resolve references, other
strings are literals; arrays and objects recurse; scalars are cloned. -/
def evaluate_expression (expression : Json) (args vars : List (String × Json)) :
    Except AppError Json :=
  match expression with
  | .str text =>
    if text == "$arg" then .ok (.obj args)
    else if text.startsWith "$arg." then
      resolve_reference_path (.obj args) (text.drop 5) "arg"
    else if text.startsWith "$var." then
      let path := text.drop 5
      let segments := path.splitOn "."
      let varName := segments.headD ""
      if varName == "" then
        .error (.validation "invalid variable reference '$var.' in function expression")
      else
        match vars.lookup varName with
        | none =>
          .error (.validation ("function expression references unknown variable '" ++
            varName ++ "'"))
        | some value =>
          let remaining := segments.tail
          if remaining.isEmpty then .ok value
          else resolve_reference_path value (sjoin "." remaining) "var"
    else .ok (.str text)
  | .arr items =>
    match evaluateItems items args vars with
    | .error e => .error e
    | .ok out => .ok (.arr out)
  | .obj fields =>
    match evaluateFields fields args vars with
    | .error e => .error e
    | .ok out => .ok (.obj out)
  | other => .ok other
termination_by (sizeOf expression, 0)

/-- Array recursion of `evaluate_expression`. -/
def evaluateItems (items : List Json) (args vars : List (String × Json)) :
    Except AppError (List Json) :=
  match items with
  | [] => .ok []
  | item :: rest =>
    match evaluate_expression item args vars with
    | .error e => .error e
    | .ok v =>
      match evaluateItems rest args vars with
      | .error e => .error e
      | .ok out => .ok (v :: out)
termination_by (sizeOf items, 1)

/-- Object recursion of `evaluate_expression`. -/
def evaluateFields (fields : List (String × Json)) (args vars : List (String × Json)) :
    Except AppError (List (String × Json)) :=
  match fields with
  | [] => .ok []
  | (key, value) :: rest =>
    match evaluate_expression value args vars with
    | .error e => .error e
    | .ok v =>
      match evaluateFields rest args vars with
      | .error e => .error e
      | .ok out => .ok ((key, v) :: out)
termination_by (sizeOf fields, 1)

end

/-- `is_truthy`: null, false, 0, empty string/array/object are falsy. -/
def is_truthy : Json → Bool
  | .null => false
  | .bool b => b
  | .num n => n != 0
  | .str text => !(text == "")
  | .arr items => !items.isEmpty
  | .obj fields => !fields.isEmpty

/-- `required_json_param`: fetch the payload expression and evaluate it. -/
def required_json_param (step : ManifestStep) (name : String)
    (args vars : List (String × Json)) : Except AppError Json :=
  match step.payload.lookup name with
  | none =>
    .error (.validation ("step '" ++ step.op ++ "' requires '" ++ name ++
      "' payload value"))
  | some expression => evaluate_expression expression args vars

/-- `optional_json_param`: absent or null evaluates to `none`. -/
def optional_json_param (step : ManifestStep) (name : String)
    (args vars : List (String × Json)) : Except AppError (Option Json) :=
  match step.payload.lookup name with
  | none => .ok none
  | some expression =>
    match evaluate_expression expression args vars with
    | .error e => .error e
    | .ok value => if value == .null then .ok none else .ok (some value)

/-- `required_string_param`: the evaluated value must be a string. -/
def required_string_param (step : ManifestStep) (name : String)
    (args vars : List (String × Json)) : Except AppError String :=
  match required_json_param step name args vars with
  | .error e => .error e
  | .ok value =>
    match value with
    | .str text => .ok text
    | _ =>
      .error (.validation ("step '" ++ step.op ++ "' payload '" ++ name ++
        "' must evaluate to a string"))

/-- `required_literal_string`: the raw payload value (not evaluated) must
be a string literal. -/
def required_literal_string (step : ManifestStep) (name : String) :
    Except AppError String :=
  match step.payload.lookup name with
  | some (.str text) => .ok text
  | _ =>
    .error (.validation ("step '" ++ step.op ++ "' payload '" ++ name ++
      "' must be a string literal"))

/-- `optional_u32_param`: `as_u64` (a non-negative integer in the model)
bounded by `u32::MAX`. -/
def optional_u32_param (step : ManifestStep) (name : String)
    (args vars : List (String × Json)) : Except AppError (Option Nat) :=
  match optional_json_param step name args vars with
  | .error e => .error e
  | .ok none => .ok none
  | .ok (some value) =>
    match value with
    | .num n =>
      if n < 0 then
        .error (.validation ("step '" ++ step.op ++ "' payload '" ++ name ++
          "' must evaluate to an integer"))
      else if n > 4294967295 then
        .error (.validation ("step '" ++ step.op ++ "' payload '" ++ name ++
          "' is too large for u32"))
      else .ok (some n.toNat)
    | _ =>
      .error (.validation ("step '" ++ step.op ++ "' payload '" ++ name ++
        "' must evaluate to an integer"))

/-- One entry of `serde_json::from_value::<Vec<OrderByClause>>`: an object
with a required string `field` and an optional string-or-null
`direction`; unknown keys are ignored, other shapes fail. -/
def jsonToOrderByEntry : Json → Option OrderByClause
  | .obj fields =>
    match fields.lookup "field" with
    | some (.str f) =>
      match fields.lookup "direction" with
      | none => some ⟨f, none⟩
      | some .null => some ⟨f, none⟩
      | some (.str d) => some ⟨f, some d⟩
      | some _ => none
    | _ => none
  | _ => none

/-- `serde_json::from_value::<Vec<OrderByClause>>` on an evaluated value. -/
def jsonToOrderBy : Json → Option (List OrderByClause)
  | .arr items => items.mapM jsonToOrderByEntry
  | _ => none

/-- `optional_order_by_param` (the serde error text is not reproduced; the
model keeps the validation kind and the fixed message prefix). -/
def optional_order_by_param (step : ManifestStep) (name : String)
    (args vars : List (String × Json)) : Except AppError (List OrderByClause) :=
  match optional_json_param step name args vars with
  | .error e => .error e
  | .ok none => .ok []
  | .ok (some value) =>
    match jsonToOrderBy value with
    | some entries => .ok entries
    | none =>
      .error (.validation ("step '" ++ step.op ++ "' payload '" ++ name ++
        "' must be an order-by array"))

/-- `parse_query_step`: table, where, orderBy, limit, offset. -/
def parse_query_step (step : ManifestStep) (args vars : List (String × Json)) :
    Except AppError (String × RelationalQueryOptions) :=
  match required_string_param step "table" args vars with
  | .error e => .error e
  | .ok table =>
    match optional_json_param step "where" args vars with
    | .error e => .error e
    | .ok whereClause =>
      match optional_order_by_param step "orderBy" args vars with
      | .error e => .error e
      | .ok orderBy =>
        match optional_u32_param step "limit" args vars with
        | .error e => .error e
        | .ok limit =>
          match optional_u32_param step "offset" args vars with
          | .error e => .error e
          | .ok offset => .ok (table, ⟨whereClause, orderBy, limit, offset⟩)

mutual

/-- `validate_arg_value`: optional unwraps (absent/null become null);
strings/ids/numbers/booleans check shape; objects validate their declared
shape recursively and reject unknown nested keys; a nested optional under
a non-optional position mirrors the source's unreachable arm. -/
def validate_arg_value : FieldDefinition → Option Json → String →
    Except AppError Json
  | .mk fieldType tbl shape innerOpt, raw, path =>
    if fieldType == .optional then
      match innerOpt with
      | none =>
        .error (.validation ("optional arg '" ++ path ++ "' is missing inner schema"))
      | some innerDef =>
        match raw with
        | none => .ok .null
        | some rawValue =>
          if rawValue == .null then .ok .null
          else validate_arg_value innerDef (some rawValue) path
    else
      match raw with
      | none =>
        .error (.validation ("missing required function arg '" ++ path ++ "'"))
      | some value =>
        match fieldType with
        | .string =>
          match value with
          | .str text => .ok (.str text)
          | _ => .error (.validation ("arg '" ++ path ++ "' must be a string"))
        | .id =>
          match value with
          | .str text => .ok (.str text)
          | _ => .error (.validation ("arg '" ++ path ++ "' must be a string"))
        | .number =>
          match value with
          | .num n => .ok (.num n)
          | _ => .error (.validation ("arg '" ++ path ++ "' must be a number"))
        | .boolean =>
          match value with
          | .bool b => .ok (.bool b)
          | _ => .error (.validation ("arg '" ++ path ++ "' must be a boolean"))
        | .object =>
          match value with
          | .obj objectFields =>
            match validateShape shape objectFields path with
            | .error e => .error e
            | .ok output =>
              match objectFields.find? (fun kv => (shape.lookup kv.1).isNone) with
              | some kv =>
                .error (.validation ("arg '" ++ path ++
                  "' includes unknown nested key '" ++ kv.1 ++ "'"))
              | none => .ok (.obj output)
          | _ => .error (.validation ("arg '" ++ path ++ "' must be an object"))
        | .optional =>
          .error (.validation ("arg '" ++ path ++
            "' uses unsupported nested optional type"))
termination_by fd _ _ => sizeOf fd

/-- The shape loop of object arg validation. -/
def validateShape : List (String × FieldDefinition) → List (String × Json) →
    String → Except AppError (List (String × Json))
  | [], _, _ => .ok []
  | (nestedName, nestedDefinition) :: rest, objectFields, path =>
    match validate_arg_value nestedDefinition (objectFields.lookup nestedName)
        (path ++ "." ++ nestedName) with
    | .error e => .error e
    | .ok v =>
      match validateShape rest objectFields path with
      | .error e => .error e
      | .ok out => .ok ((nestedName, v) :: out)
termination_by shape _ _ => sizeOf shape

end

/-- The per-field loop of `validate_args`. -/
def validateArgsFields : List (String × FieldDefinition) →
    List (String × Json) → Except AppError (List (String × Json))
  | [], _ => .ok []
  | (fieldName, definition) :: rest, args =>
    match validate_arg_value definition (args.lookup fieldName)
        ("args." ++ fieldName) with
    | .error e => .error e
    | .ok v =>
      match validateArgsFields rest args with
      | .error e => .error e
      | .ok out => .ok ((fieldName, v) :: out)

/-- `validate_args`: unknown keys fail, then each declared arg is
validated against its type. -/
def validate_args (schema : List (String × FieldDefinition))
    (args : List (String × Json)) : Except AppError (List (String × Json)) :=
  match args.find? (fun kv => (schema.lookup kv.1).isNone) with
  | some kv => .error (.validation ("unknown function arg '" ++ kv.1 ++ "'"))
  | none => validateArgsFields schema args

/-- The repository operations the executor dispatches to, over an
explicit database state: `query`/`first` read, `insert` writes and
returns the new id together with the next state. -/
structure RepoModel (DB : Type) where
  query : DB → String → RelationalQueryOptions → Except AppError (List Json)
  firstRow : DB → String → RelationalQueryOptions → Except AppError (Option Json)
  insert : DB → String → Json → Except AppError (String × DB)

/-- `is_write_step`: only `insert` steps are writes. -/
def is_write_step (step : ManifestStep) : Bool :=
  step.op == "insert"

/-- `ensure_write_allowed`: refuses writes in read-only mode. -/
def ensure_write_allowed (readOnly : Bool) (op : String) : Except AppError Unit :=
  if readOnly then
    .error (.validation ("query function cannot execute '" ++ op ++ "' step"))
  else .ok ()

/-- `execute_step_without_transaction`: dispatch on the step op.  The
database is threaded explicitly; only `insert` produces a new state. -/
def execute_step_without_transaction {DB : Type} (repo : RepoModel DB)
    (readOnly : Bool) (ctx : RuntimeContext) (step : ManifestStep) (db : DB) :
    Except AppError (Json × RuntimeContext × DB) :=
  match step.op with
  | "get" =>
    match parse_query_step step ctx.args ctx.vars with
    | .error e => .error e
    | .ok (table, options) =>
      match repo.query db table options with
      | .error e => .error e
      | .ok rows => .ok (.arr rows, ctx, db)
  | "first" =>
    match parse_query_step step ctx.args ctx.vars with
    | .error e => .error e
    | .ok (table, options) =>
      match repo.firstRow db table options with
      | .error e => .error e
      | .ok row => .ok (row.getD .null, ctx, db)
  | "insert" =>
    match ensure_write_allowed readOnly "insert" with
    | .error e => .error e
    | .ok () =>
      match required_string_param step "table" ctx.args ctx.vars with
      | .error e => .error e
      | .ok table =>
        match required_json_param step "value" ctx.args ctx.vars with
        | .error e => .error e
        | .ok payload =>
          match repo.insert db table payload with
          | .error e => .error e
          | .ok (id, db2) => .ok (.str id, ctx, db2)
  | "assert" =>
    match required_json_param step "condition" ctx.args ctx.vars with
    | .error e => .error e
    | .ok condition =>
      match required_literal_string step "message" with
      | .error e => .error e
      | .ok message =>
        if !is_truthy condition then .error (.validation message)
        else .ok (.bool true, ctx, db)
  | "setVar" =>
    match required_literal_string step "name" with
    | .error e => .error e
    | .ok name =>
      match required_json_param step "value" ctx.args ctx.vars with
      | .error e => .error e
      | .ok value =>
        .ok (value, { ctx with vars := insertVar ctx.vars name value }, db)
  | "return" =>
    match required_json_param step "value" ctx.args ctx.vars with
    | .error e => .error e
    | .ok value => .ok (value, ctx, db)
  | _ =>
    .error (.validation ("unsupported function step op '" ++ step.op ++ "'"))

/-- `execute_steps_without_transaction`: the step loop — in read-only mode
every write step is refused before execution; `into` bindings extend the
variable map; a `return` step ends execution; otherwise the last step's
result flows out.  The final database state is returned alongside. -/
def execute_steps_without_transaction {DB : Type} (repo : RepoModel DB)
    (readOnly : Bool) : List ManifestStep → RuntimeContext → Json → DB →
    Except AppError Json × DB
  | [], _, lastResult, db => (.ok lastResult, db)
  | step :: rest, ctx, _, db =>
    if readOnly && is_write_step step then
      (.error (.validation ("query function cannot execute '" ++ step.op ++
        "' step")), db)
    else
      match execute_step_without_transaction repo readOnly ctx step db with
      | .error e => (.error e, db)
      | .ok (stepResult, ctx2, db2) =>
        let ctx3 :=
          match step.into with
          | some intoName => { ctx2 with vars := insertVar ctx2.vars intoName stepResult }
          | none => ctx2
        if step.op == "return" then (.ok stepResult, db2)
        else execute_steps_without_transaction repo readOnly rest ctx3 stepResult db2

/-- The `FunctionKind::Query` branch of `execute_manifest_function`:
validate the call args, then run the steps read-only and without a
transaction. -/
def execute_query_function {DB : Type} (repo : RepoModel DB)
    (fn : ManifestFunction) (args : List (String × Json)) (db : DB) :
    Except AppError Json × DB :=
  match validate_args fn.args args with
  | .error e => (.error e, db)
  | .ok validated =>
    execute_steps_without_transaction repo true fn.steps ⟨validated, []⟩ .null db

/-- `steps.iter().any(is_write_step)`. -/
def containsInsertStep (steps : List ManifestStep) : Bool :=
  steps.any is_write_step

/-- `true` when a `return` step occurs strictly before the first write
step. -/
def has_return_before_insert : List ManifestStep → Bool
  | [] => false
  | step :: rest =>
    if is_write_step step then false
    else (step.op == "return") || has_return_before_insert rest

theorem exec_step_readonly_preserves {DB : Type} (repo : RepoModel DB)
    (ctx : RuntimeContext) (step : ManifestStep) (db : DB) :
    ∀ r c2 db2,
      execute_step_without_transaction repo true ctx step db = .ok (r, c2, db2) →
      db2 = db := by
  intro r c2 db2 h
  unfold execute_step_without_transaction at h
  repeat' split at h
  all_goals simp_all [ensure_write_allowed]

theorem exec_steps_readonly_preserves {DB : Type} (repo : RepoModel DB) :
    ∀ (steps : List ManifestStep) (ctx : RuntimeContext) (lastResult : Json)
      (db : DB),
      (execute_steps_without_transaction repo true steps ctx lastResult db).2 = db := by
  intro steps
  induction steps with
  | nil => intro ctx lastResult db; rfl
  | cons step rest ih =>
    intro ctx lastResult db
    unfold execute_steps_without_transaction
    by_cases hw : (true && is_write_step step) = true
    · rw [if_pos hw]
    · rw [if_neg hw]
      cases hstep : execute_step_without_transaction repo true ctx step db with
      | error e => rfl
      | ok result =>
        obtain ⟨stepResult, ctx2, db2⟩ := result
        have hdb := exec_step_readonly_preserves repo ctx step db
          stepResult ctx2 db2 hstep
        subst hdb
        by_cases hret : (step.op == "return") = true
        · simp only [hret, if_true]
        · simp only [hret, if_false, Bool.false_eq_true]
          exact ih _ _ db2

theorem exec_steps_readonly_insert_blocked {DB : Type} (repo : RepoModel DB) :
    ∀ (steps : List ManifestStep) (ctx : RuntimeContext) (lastResult : Json)
      (db : DB), containsInsertStep steps = true →
      (∃ e, (execute_steps_without_transaction repo true steps ctx lastResult db).1 =
        .error e) ∨
      has_return_before_insert steps = true := by
  intro steps
  induction steps with
  | nil => intro ctx l db h; simp [containsInsertStep] at h
  | cons step rest ih =>
    intro ctx l db h
    by_cases hw : is_write_step step = true
    · left
      refine ⟨.validation ("query function cannot execute '" ++ step.op ++ "' step"), ?_⟩
      unfold execute_steps_without_transaction
      simp [hw]
    · have hw' : is_write_step step = false := by
        revert hw; cases is_write_step step <;> simp
      have hrest : containsInsertStep rest = true := by
        unfold containsInsertStep at h ⊢
        simpa [hw'] using h
      unfold execute_steps_without_transaction
      simp only [hw', Bool.and_false, Bool.false_eq_true, if_false]
      cases hstep : execute_step_without_transaction repo true ctx step db with
      | error e => left; exact ⟨e, rfl⟩
      | ok result =>
        obtain ⟨stepResult, ctx2, db2⟩ := result
        by_cases hret : (step.op == "return") = true
        · right
          unfold has_return_before_insert
          simp [hw', hret]
        · simp only [hret, Bool.false_eq_true, if_false]
          rcases ih (match step.into with
              | some intoName => { ctx2 with vars := insertVar ctx2.vars intoName stepResult }
              | none => ctx2) stepResult db2 hrest with ⟨e, he⟩ | hr
          · left; exact ⟨e, he⟩
          · right
            unfold has_return_before_insert
            simp [hw', hret, hr]

/-- C3 amended: a read-only (`readFunction`) execution leaves the database
unchanged — inserts are refused before being issued — and when the step
list contains an `insert` step, either the call fails with some error or a
`return` step strictly before the first insert ended execution early;
whenever the loop reaches a write step, it fails at that step with the
validation error `query function cannot execute 'insert' step`. -/
theorem c3_query_function_never_writes :
    ∀ (DB : Type) (repo : RepoModel DB) (fn : ManifestFunction)
      (args : List (String × Json)) (db : DB),
      (execute_query_function repo fn args db).2 = db ∧
      (containsInsertStep fn.steps = true →
        (∃ e, (execute_query_function repo fn args db).1 = .error e) ∨
        has_return_before_insert fn.steps = true) ∧
      (∀ (ctx : RuntimeContext) (lastResult : Json) (step : ManifestStep)
          (rest : List ManifestStep), is_write_step step = true →
        (execute_steps_without_transaction repo true (step :: rest) ctx
            lastResult db).1 =
          .error (.validation ("query function cannot execute '" ++ step.op ++
            "' step"))) := by
  intro DB repo fn args db
  refine ⟨?_, ?_, ?_⟩
  · unfold execute_query_function
    cases validate_args fn.args args with
    | error e => rfl
    | ok validated => exact exec_steps_readonly_preserves repo fn.steps _ _ db
  · intro h
    unfold execute_query_function
    cases validate_args fn.args args with
    | error e => left; exact ⟨e, rfl⟩
    | ok validated => exact exec_steps_readonly_insert_blocked repo fn.steps _ _ db h
  · intro ctx lastResult step rest hw
    unfold execute_steps_without_transaction
    simp [hw]

/-- A concrete repository over a counter database: each insert bumps the
counter. -/
def countingRepo : RepoModel Nat :=
  ⟨fun _ _ _ => .ok [], fun _ _ _ => .ok none, fun db _ _ => .ok ("id-1", db + 1)⟩

/-- A `return null` step. -/
def returnNullStep : ManifestStep :=
  ⟨"return", [("value", Json.null)], none⟩

/-- An `insert` step. -/
def insertUsersStep : ManifestStep :=
  ⟨"insert", [("table", Json.str "users"), ("value", Json.obj [])], none⟩

/-- C3 counterexample: a query function whose step list contains an
`insert` step does not necessarily fail — a `return` step before the
insert ends execution successfully (the database is still unchanged). -/
theorem c3_counterexample :
    containsInsertStep [returnNullStep, insertUsersStep] = true ∧
    execute_query_function countingRepo
        ⟨.query, [], [returnNullStep, insertUsersStep]⟩ [] 0 =
      (.ok Json.null, 0) := by
  constructor
  · rfl
  · simp [execute_query_function, validate_args, validateArgsFields,
      execute_steps_without_transaction, execute_step_without_transaction,
      required_json_param, evaluate_expression, is_write_step,
      returnNullStep, insertUsersStep, List.lookup]

/-- Witness for C3 amended at a function whose single step is an insert:
the call errors with the read-only refusal and the database is unchanged. -/
theorem c3_query_function_never_writes_witness :
    (execute_query_function countingRepo ⟨.query, [], [insertUsersStep]⟩ [] 0).2 = 0 ∧
    ((∃ e, (execute_query_function countingRepo
        ⟨.query, [], [insertUsersStep]⟩ [] 0).1 = .error e) ∨
      has_return_before_insert [insertUsersStep] = true) ∧
    (execute_steps_without_transaction countingRepo true
        [insertUsersStep] ⟨[], []⟩ Json.null 0).1 =
      .error (.validation ("query function cannot execute '" ++
        insertUsersStep.op ++ "' step")) :=
  ⟨(c3_query_function_never_writes Nat countingRepo
      ⟨.query, [], [insertUsersStep]⟩ [] 0).1,
   (c3_query_function_never_writes Nat countingRepo
      ⟨.query, [], [insertUsersStep]⟩ [] 0).2.1 (by rfl),
   (c3_query_function_never_writes Nat countingRepo
      ⟨.query, [], [insertUsersStep]⟩ [] 0).2.2 ⟨[], []⟩ Json.null
     insertUsersStep [] (by rfl)⟩

/- ### Where-clause compiler (`domain/relational/where_clause.rs`) -/

/-- Typed bind parameter (`SqlParam` in `common/src/query.rs`). -/
inductive SqlParam where
  | str (s : String)
  | num (n : Int)
  | bool (b : Bool)
deriving DecidableEq, Repr

/-- Compiled where clause: optional SQL fragment plus ordered binds. -/
structure CompiledWhere where
  clause : Option String
  params : List SqlParam
deriving DecidableEq, Repr

/-- `str::starts_with` at the character-list level. -/
def strStartsWith (s pre : String) : Bool :=
  pre.data.isPrefixOf s.data

/-- `value_to_param`: strings, numbers and booleans bind; everything else
is a validation error.  (`as_f64` succeeds exactly on numbers in the
integer-number model.) -/
def value_to_param : Json → Except AppError SqlParam
  | .str text => .ok (.str text)
  | .num n => .ok (.num n)
  | .bool b => .ok (.bool b)
  | _ => .error (.validation "where values must be string, number, or boolean")

/-- `number_param`: comparison operators take numbers only. -/
def number_param : Json → Except AppError SqlParam
  | .num n => .ok (.num n)
  | _ => .error (.validation "comparison operator expects a number")

/-- `std::iter::repeat_n("?", n).join(", ")`. -/
def placeholdersFor (n : Nat) : String :=
  sjoin ", " (List.replicate n "?")

/-- The `$in`/`$nin` bind loop of `compile_operator`. -/
def valueParams : List Json → Except AppError (List SqlParam)
  | [] => .ok []
  | item :: rest =>
    match value_to_param item with
    | .error e => .error e
    | .ok p =>
      match valueParams rest with
      | .error e => .error e
      | .ok params => .ok (p :: params)

/-- `compile_operator`: one `$op` fragment for a validated field. -/
def compile_operator (fieldName operator : String) (operand : Json) :
    Except AppError (String × List SqlParam) :=
  let sqlField := "`" ++ fieldName ++ "`"
  match operator with
  | "$eq" =>
    if operand == .null then .ok (sqlField ++ " IS NULL", [])
    else
      match value_to_param operand with
      | .error e => .error e
      | .ok p => .ok (sqlField ++ " = ?", [p])
  | "$ne" =>
    if operand == .null then .ok (sqlField ++ " IS NOT NULL", [])
    else
      match value_to_param operand with
      | .error e => .error e
      | .ok p => .ok (sqlField ++ " <> ?", [p])
  | "$gt" =>
    match number_param operand with
    | .error e => .error e
    | .ok p => .ok (sqlField ++ " > ?", [p])
  | "$gte" =>
    match number_param operand with
    | .error e => .error e
    | .ok p => .ok (sqlField ++ " >= ?", [p])
  | "$lt" =>
    match number_param operand with
    | .error e => .error e
    | .ok p => .ok (sqlField ++ " < ?", [p])
  | "$lte" =>
    match number_param operand with
    | .error e => .error e
    | .ok p => .ok (sqlField ++ " <= ?", [p])
  | "$contains" =>
    match operand with
    | .str value => .ok (sqlField ++ " LIKE ?", [.str ("%" ++ value ++ "%")])
    | _ => .error (.validation "$contains expects a string")
  | "$in" =>
    match operand with
    | .arr items =>
      if items.isEmpty then .error (.validation (operator ++ " cannot be empty"))
      else
        match valueParams items with
        | .error e => .error e
        | .ok params =>
          .ok (sqlField ++ " IN (" ++ placeholdersFor params.length ++ ")", params)
    | _ => .error (.validation (operator ++ " expects an array"))
  | "$nin" =>
    match operand with
    | .arr items =>
      if items.isEmpty then .error (.validation (operator ++ " cannot be empty"))
      else
        match valueParams items with
        | .error e => .error e
        | .ok params =>
          .ok (sqlField ++ " NOT IN (" ++ placeholdersFor params.length ++ ")", params)
    | _ => .error (.validation (operator ++ " expects an array"))
  | _ => .error (.validation ("unsupported where operator '" ++ operator ++ "'"))

/-- The per-operator loop over an operator object. -/
def compileOps (fieldName : String) :
    List (String × Json) → Except AppError (List String × List SqlParam)
  | [] => .ok ([], [])
  | (operator, operand) :: rest =>
    match compile_operator fieldName operator operand with
    | .error e => .error e
    | .ok (piece, pieceParams) =>
      match compileOps fieldName rest with
      | .error e => .error e
      | .ok (pieces, params) => .ok (piece :: pieces, pieceParams ++ params)

/-- The plain `field = value` (or `IS NULL`) fragment. -/
def compileFieldEq (key : String) (value : Json) :
    Except AppError (String × List SqlParam) :=
  match value with
  | .null => .ok ("`" ++ key ++ "` IS NULL", [])
  | _ =>
    match value_to_param value with
    | .error e => .error e
    | .ok p => .ok ("`" ++ key ++ "` = ?", [p])

/-- `Value::as_array`. -/
def Json.asArr : Json → Option (List Json)
  | .arr items => some items
  | _ => none

/-- `Value::as_object`, as an entry list. -/
def Json.asObjEntries : Json → Option (List (String × Json))
  | .obj fields => some fields
  | _ => none

theorem Json.asArr_sizeOf {value : Json} {items : List Json}
    (h : value.asArr = some items) : sizeOf items < sizeOf value := by
  cases value <;> simp [Json.asArr] at h
  subst h
  simp_arith

mutual

/-- `compile_condition`: an object whose entries compile to pieces joined
with `AND`; an empty piece list is a validation error. -/
def compile_condition (condition : Json) (allowedFields : List String) :
    Except AppError (String × List SqlParam) :=
  match condition with
  | .obj entries =>
    match compileEntries entries allowedFields with
    | .error e => .error e
    | .ok (pieces, params) =>
      if pieces.isEmpty then
        .error (.validation "where clause must contain at least one condition")
      else .ok (sjoin " AND " pieces, params)
  | _ => .error (.validation "where clause must be an object")
termination_by sizeOf condition

/-- The entry loop of `compile_condition`: each entry contributes its
pieces and parameters in order (the per-entry body is factored out as
`compileEntryResult`). -/
def compileEntries :
    List (String × Json) → List String →
    Except AppError (List String × List SqlParam)
  | [], _ => .ok ([], [])
  | (key, value) :: rest, allowedFields =>
    match compileEntryResult key value allowedFields with
    | .error e => .error e
    | .ok (entryPieces, entryParams) =>
      match compileEntries rest allowedFields with
      | .error e => .error e
      | .ok (pieces, params) =>
        .ok (entryPieces ++ pieces, entryParams ++ params)
termination_by entries _ => sizeOf entries

/-- One iteration of the `compile_condition` entry loop: `$and`/`$or`
recurse into their non-empty array children and produce one parenthesized
piece; field keys are checked against the allowed set and the identifier
regex, then either an operator object or a plain equality compiles. -/
def compileEntryResult (key : String) (value : Json)
    (allowedFields : List String) :
    Except AppError (List String × List SqlParam) :=
  if key == "$and" || key == "$or" then
    match harr : value.asArr with
    | some nested =>
      if nested.isEmpty then .error (.validation (key ++ " cannot be empty"))
      else
        match compileNested nested allowedFields with
        | .error e => .error e
        | .ok (nestedSql, nestedParams) =>
          let glue := if key == "$and" then " AND " else " OR "
          .ok (["(" ++ sjoin glue nestedSql ++ ")"], nestedParams)
    | none => .error (.validation (key ++ " must be an array"))
  else if !(allowedFields.contains key) then
    .error (.validation ("unknown filter field '" ++ key ++ "'"))
  else
    match validate_identifier key with
    | .error e => .error e
    | .ok () =>
      match value.asObjEntries with
      | some opsMap =>
        if opsMap.any (fun kv => strStartsWith kv.1 "$") then
          compileOps key opsMap
        else
          match compileFieldEq key value with
          | .error e => .error e
          | .ok (piece, pieceParams) => .ok ([piece], pieceParams)
      | none =>
        match compileFieldEq key value with
        | .error e => .error e
        | .ok (piece, pieceParams) => .ok ([piece], pieceParams)
termination_by sizeOf value + 1
decreasing_by
  simp_wf
  have := Json.asArr_sizeOf harr
  omega

/-- The `$and`/`$or` child loop: each child condition compiles and is
parenthesized. -/
def compileNested :
    List Json → List String → Except AppError (List String × List SqlParam)
  | [], _ => .ok ([], [])
  | entry :: rest, allowedFields =>
    match compile_condition entry allowedFields with
    | .error e => .error e
    | .ok (entrySql, entryParams) =>
      match compileNested rest allowedFields with
      | .error e => .error e
      | .ok (sqls, params) =>
        .ok (("(" ++ entrySql ++ ")") :: sqls, entryParams ++ params)
termination_by nested _ => sizeOf nested

end

/-- `compile_where_clause`: `None` compiles to no fragment and no binds. -/
def compile_where_clause (whereClause : Option Json)
    (allowedFields : List String) : Except AppError CompiledWhere :=
  match whereClause with
  | some value =>
    match compile_condition value allowedFields with
    | .error e => .error e
    | .ok (sql, params) => .ok ⟨some sql, params⟩
  | none => .ok ⟨none, []⟩

/-- Number of `?` placeholders in a SQL fragment. -/
def countQ (s : String) : Nat :=
  s.data.countP (fun c => c == '?')

theorem countQ_append (a b : String) : countQ (a ++ b) = countQ a + countQ b := by
  unfold countQ
  rw [String.data_append, List.countP_append]

theorem countQ_sjoin (sep : String) (hsep : countQ sep = 0) :
    ∀ l : List String, countQ (sjoin sep l) = (l.map countQ).sum := by
  intro l
  induction l with
  | nil => simp [sjoin]; rfl
  | cons x rest ih =>
    cases rest with
    | nil => simp [sjoin]
    | cons y rest2 =>
      have hstep : sjoin sep (x :: y :: rest2) = x ++ sep ++ sjoin sep (y :: rest2) := rfl
      rw [hstep, countQ_append, countQ_append, hsep, ih]
      simp

theorem countQ_placeholdersFor (n : Nat) : countQ (placeholdersFor n) = n := by
  unfold placeholdersFor
  induction n with
  | zero => rfl
  | succ n ih =>
    cases n with
    | zero => rfl
    | succ m =>
      have hstep : sjoin ", " (List.replicate (m + 2) "?") =
          "?" ++ ", " ++ sjoin ", " (List.replicate (m + 1) "?") := by
        rw [List.replicate_succ, List.replicate_succ]
        rfl
      rw [hstep, countQ_append, countQ_append, ih]
      have h1 : countQ "?" = 1 := rfl
      have h2 : countQ ", " = 0 := rfl
      omega

theorem countQ_of_identifier (s : String) (h : identifierRegexMatch s = true) :
    countQ s = 0 := by
  unfold identifierRegexMatch at h
  unfold countQ
  cases hd : s.data with
  | nil => simp
  | cons c rest =>
    rw [hd] at h
    simp only [Bool.and_eq_true] at h
    have hc : (c == '?') = false := by
      simp only [beq_eq_false_iff_ne, ne_eq]
      intro hEq
      subst hEq
      exact absurd h.1 (by decide)
    have hrest : ∀ a ∈ rest, ¬((a == '?') = true) := by
      intro a ha hq
      have htail := List.all_eq_true.mp h.2 a ha
      have haq : a = '?' := eq_of_beq hq
      subst haq
      exact absurd htail (by decide)
    simp [List.countP_cons, hc, List.countP_eq_zero.mpr hrest]

theorem identifierRegexMatch_of_validate (s : String)
    (h : validate_identifier s = .ok ()) : identifierRegexMatch s = true := by
  revert h
  unfold validate_identifier
  cases hm : identifierRegexMatch s <;> simp [hm]

theorem countQ_backtick_field (fieldName : String) (hf : countQ fieldName = 0) :
    countQ ("`" ++ fieldName ++ "`") = 0 := by
  rw [countQ_append, countQ_append, hf]
  decide

theorem compileFieldEq_count (key : String) (value : Json)
    (hk : countQ key = 0) :
    ∀ piece params, compileFieldEq key value = .ok (piece, params) →
      countQ piece = params.length := by
  intro piece params h
  unfold compileFieldEq at h
  split at h
  · simp only [Except.ok.injEq, Prod.mk.injEq] at h
    obtain ⟨h1, h2⟩ := h
    subst h1; subst h2
    rw [countQ_append, countQ_append, hk]
    have e1 : countQ "`" = 0 := rfl
    have e2 : countQ "` IS NULL" = 0 := rfl
    simp [e1, e2]
  · split at h
    · cases h
    · simp only [Except.ok.injEq, Prod.mk.injEq] at h
      obtain ⟨h1, h2⟩ := h
      subst h1; subst h2
      rw [countQ_append, countQ_append, hk]
      have e1 : countQ "`" = 0 := rfl
      have e2 : countQ "` = ?" = 1 := rfl
      simp [e1, e2]

theorem compile_operator_count (fieldName operator : String) (operand : Json)
    (hf : countQ fieldName = 0) :
    ∀ sql params, compile_operator fieldName operator operand = .ok (sql, params) →
      countQ sql = params.length := by
  intro sql params h
  have hfield := countQ_backtick_field fieldName hf
  unfold compile_operator at h
  repeat' split at h
  all_goals (try (cases h))
  all_goals (repeat rw [countQ_append])
  all_goals (try rw [hf])
  all_goals (try rw [countQ_placeholdersFor])
  all_goals
    (have b1 : countQ "`" = 0 := rfl
     have b2 : countQ " IS NULL" = 0 := rfl
     have b3 : countQ " IS NOT NULL" = 0 := rfl
     have b4 : countQ " = ?" = 1 := rfl
     have b5 : countQ " <> ?" = 1 := rfl
     have b6 : countQ " > ?" = 1 := rfl
     have b7 : countQ " >= ?" = 1 := rfl
     have b8 : countQ " < ?" = 1 := rfl
     have b9 : countQ " <= ?" = 1 := rfl
     have b10 : countQ " LIKE ?" = 1 := rfl
     have b11 : countQ " IN (" = 0 := rfl
     have b12 : countQ " NOT IN (" = 0 := rfl
     have b13 : countQ ")" = 0 := rfl
     simp [b1, b2, b3, b4, b5, b6, b7, b8, b9, b10, b11, b12, b13])

theorem compileOps_count (fieldName : String) (hf : countQ fieldName = 0) :
    ∀ (opsMap : List (String × Json)) pieces params,
      compileOps fieldName opsMap = .ok (pieces, params) →
      (pieces.map countQ).sum = params.length := by
  intro opsMap
  induction opsMap with
  | nil =>
    intro pieces params h
    unfold compileOps at h
    simp only [Except.ok.injEq, Prod.mk.injEq] at h
    obtain ⟨h1, h2⟩ := h
    subst h1; subst h2
    rfl
  | cons head rest ih =>
    intro pieces params h
    obtain ⟨operator, operand⟩ := head
    unfold compileOps at h
    cases hop : compile_operator fieldName operator operand with
    | error e => rw [hop] at h; cases h
    | ok pair =>
      obtain ⟨piece, pieceParams⟩ := pair
      rw [hop] at h
      cases hrest : compileOps fieldName rest with
      | error e => rw [hrest] at h; cases h
      | ok pair2 =>
        obtain ⟨pieces2, params2⟩ := pair2
        rw [hrest] at h
        simp only [Except.ok.injEq, Prod.mk.injEq] at h
        obtain ⟨h1, h2⟩ := h
        subst h1; subst h2
        have hc := compile_operator_count fieldName operator operand hf
          piece pieceParams hop
        have hs := ih pieces2 params2 hrest
        simp [hc, hs]

theorem list_pair_sizeOf_pos (l : List (String × Json)) : 0 < sizeOf l := by
  cases l <;> simp_arith

theorem list_json_sizeOf_pos (l : List Json) : 0 < sizeOf l := by
  cases l <;> simp_arith

theorem compile_count_aux : ∀ n : Nat,
    (∀ (condition : Json) (allowedFields : List String) sql params,
      sizeOf condition ≤ n →
      compile_condition condition allowedFields = .ok (sql, params) →
      countQ sql = params.length) ∧
    (∀ (entries : List (String × Json)) (allowedFields : List String) pieces params,
      sizeOf entries ≤ n →
      compileEntries entries allowedFields = .ok (pieces, params) →
      (pieces.map countQ).sum = params.length) ∧
    (∀ (key : String) (value : Json) (allowedFields : List String) pieces params,
      sizeOf value ≤ n →
      compileEntryResult key value allowedFields = .ok (pieces, params) →
      (pieces.map countQ).sum = params.length) ∧
    (∀ (nested : List Json) (allowedFields : List String) sqls params,
      sizeOf nested ≤ n →
      compileNested nested allowedFields = .ok (sqls, params) →
      (sqls.map countQ).sum = params.length) := by
  intro n
  induction n with
  | zero =>
    refine ⟨?_, ?_, ?_, ?_⟩
    · intro condition _ _ _ hs _
      exact absurd hs (by have := json_sizeOf_pos condition; omega)
    · intro entries _ _ _ hs _
      exact absurd hs (by have := list_pair_sizeOf_pos entries; omega)
    · intro _ value _ _ _ hs _
      exact absurd hs (by have := json_sizeOf_pos value; omega)
    · intro nested _ _ _ hs _
      exact absurd hs (by have := list_json_sizeOf_pos nested; omega)
  | succ n ih =>
    obtain ⟨ihCond, ihEntries, ihEntry, ihNested⟩ := ih
    refine ⟨?_, ?_, ?_, ?_⟩
    · -- compile_condition
      intro condition allowedFields sql params hs h
      cases condition with
      | obj entries =>
        unfold compile_condition at h
        cases he : compileEntries entries allowedFields with
        | error e => rw [he] at h; cases h
        | ok pair =>
          obtain ⟨pieces, params2⟩ := pair
          rw [he] at h
          simp only [] at h
          by_cases hemp : pieces.isEmpty = true
          · rw [if_pos hemp] at h; cases h
          · rw [if_neg hemp] at h
            simp only [Except.ok.injEq, Prod.mk.injEq] at h
            obtain ⟨h1, h2⟩ := h
            subst h1; subst h2
            have hsize : sizeOf entries ≤ n := by
              have : sizeOf (Json.obj entries) = 1 + sizeOf entries := by simp
              omega
            rw [countQ_sjoin " AND " (by rfl)]
            exact ihEntries entries allowedFields pieces params2 hsize he
      | null => simp [compile_condition] at h
      | bool b => simp [compile_condition] at h
      | num m => simp [compile_condition] at h
      | str s => simp [compile_condition] at h
      | arr items => simp [compile_condition] at h
    · -- compileEntries
      intro entries allowedFields pieces params hs h
      cases entries with
      | nil =>
        unfold compileEntries at h
        simp only [Except.ok.injEq, Prod.mk.injEq] at h
        obtain ⟨h1, h2⟩ := h
        subst h1; subst h2
        rfl
      | cons head rest =>
        obtain ⟨key, value⟩ := head
        have hsrest : sizeOf rest ≤ n := by
          have : sizeOf ((key, value) :: rest) =
              1 + (1 + sizeOf key + sizeOf value) + sizeOf rest := by simp_arith
          have hv := json_sizeOf_pos value
          omega
        have hsvalue : sizeOf value ≤ n := by
          have : sizeOf ((key, value) :: rest) =
              1 + (1 + sizeOf key + sizeOf value) + sizeOf rest := by simp_arith
          have := list_pair_sizeOf_pos rest
          omega
        unfold compileEntries at h
        cases hx : compileEntryResult key value allowedFields with
        | error e => rw [hx] at h; cases h
        | ok pairX =>
          obtain ⟨entryPieces, entryParams⟩ := pairX
          rw [hx] at h
          cases he : compileEntries rest allowedFields with
          | error e => rw [he] at h; cases h
          | ok pairE =>
            obtain ⟨pieces2, params2⟩ := pairE
            rw [he] at h
            simp only [Except.ok.injEq, Prod.mk.injEq] at h
            obtain ⟨h1, h2⟩ := h
            subst h1; subst h2
            have hxc := ihEntry key value allowedFields entryPieces entryParams
              hsvalue hx
            have hec := ihEntries rest allowedFields pieces2 params2 hsrest he
            simp only [List.map_append, List.sum_append, List.length_append]
            omega
    · -- compileEntryResult
      intro key value allowedFields pieces params hs h
      unfold compileEntryResult at h
      by_cases hao : (key == "$and" || key == "$or") = true
      · rw [if_pos hao] at h
        cases harr : value.asArr with
        | none => rw [harr] at h; cases h
        | some nested =>
          rw [harr] at h
          simp only [] at h
          by_cases hemp : nested.isEmpty = true
          · rw [if_pos hemp] at h; cases h
          · rw [if_neg hemp] at h
            cases hn : compileNested nested allowedFields with
            | error e => rw [hn] at h; cases h
            | ok pairN =>
              obtain ⟨nestedSql, nestedParams⟩ := pairN
              rw [hn] at h
              simp only [Except.ok.injEq, Prod.mk.injEq] at h
              obtain ⟨h1, h2⟩ := h
              subst h1; subst h2
              have hsn : sizeOf nested ≤ n := by
                have := Json.asArr_sizeOf harr
                omega
              have hglue :
                  countQ (if (key == "$and") = true then " AND " else " OR ") = 0 := by
                split <;> rfl
              have hnested := ihNested nested allowedFields nestedSql nestedParams
                hsn hn
              simp only [List.map_cons, List.map_nil, List.sum_cons, List.sum_nil]
              rw [countQ_append, countQ_append,
                countQ_sjoin (if (key == "$and") = true then " AND " else " OR ") hglue]
              have c1 : countQ "(" = 0 := rfl
              have c2 : countQ ")" = 0 := rfl
              omega
      · rw [if_neg hao] at h
        by_cases hallow : (!(allowedFields.contains key)) = true
        · rw [if_pos hallow] at h; cases h
        · rw [if_neg hallow] at h
          cases hvi : validate_identifier key with
          | error e => rw [hvi] at h; cases h
          | ok u =>
            obtain ⟨⟩ := u
            rw [hvi] at h
            simp only [] at h
            have hk : countQ key = 0 :=
              countQ_of_identifier key (identifierRegexMatch_of_validate key hvi)
            have hfieldeq :
                (match compileFieldEq key value with
                  | .error e => (.error e : Except AppError (List String × List SqlParam))
                  | .ok (piece, pieceParams) => .ok ([piece], pieceParams)) =
                    .ok (pieces, params) →
                (pieces.map countQ).sum = params.length := by
              intro hfe
              cases hf : compileFieldEq key value with
              | error e => rw [hf] at hfe; cases hfe
              | ok pairF =>
                obtain ⟨piece, pieceParams⟩ := pairF
                rw [hf] at hfe
                simp only [Except.ok.injEq, Prod.mk.injEq] at hfe
                obtain ⟨h1, h2⟩ := hfe
                subst h1; subst h2
                have := compileFieldEq_count key value hk piece pieceParams hf
                simp [this]
            cases hobj : value.asObjEntries with
            | some opsMap =>
              rw [hobj] at h
              simp only [] at h
              by_cases hops : (opsMap.any (fun kv => strStartsWith kv.1 "$")) = true
              · rw [if_pos hops] at h
                exact compileOps_count key hk opsMap pieces params h
              · rw [if_neg hops] at h
                exact hfieldeq h
            | none =>
              rw [hobj] at h
              simp only [] at h
              exact hfieldeq h
    · -- compileNested
      intro nested allowedFields sqls params hs h
      cases nested with
      | nil =>
        unfold compileNested at h
        simp only [Except.ok.injEq, Prod.mk.injEq] at h
        obtain ⟨h1, h2⟩ := h
        subst h1; subst h2
        rfl
      | cons entry rest =>
        unfold compileNested at h
        cases hc : compile_condition entry allowedFields with
        | error e => rw [hc] at h; cases h
        | ok pairC =>
          obtain ⟨entrySql, entryParams⟩ := pairC
          rw [hc] at h
          cases hn : compileNested rest allowedFields with
          | error e => rw [hn] at h; cases h
          | ok pairN =>
            obtain ⟨sqls2, params2⟩ := pairN
            rw [hn] at h
            simp only [Except.ok.injEq, Prod.mk.injEq] at h
            obtain ⟨h1, h2⟩ := h
            subst h1; subst h2
            have hse : sizeOf entry ≤ n := by
              have h1 := List.sizeOf_lt_of_mem (List.mem_cons_self entry rest)
              omega
            have hsr : sizeOf rest ≤ n := by
              have : sizeOf (entry :: rest) = 1 + sizeOf entry + sizeOf rest := by simp
              have := json_sizeOf_pos entry
              omega
            have hcc := ihCond entry allowedFields entrySql entryParams hse hc
            have hnn := ihNested rest allowedFields sqls2 params2 hsr hn
            simp only [List.map_cons, List.sum_cons, List.length_append]
            rw [countQ_append, countQ_append]
            have c1 : countQ "(" = 0 := rfl
            have c2 : countQ ")" = 0 := rfl
            omega

/-- C4: whenever `compile_condition` succeeds, the number of `?`
placeholders in the emitted SQL fragment equals the length of the
returned bind-parameter list (and hence the same holds for every
compiled `compile_where_clause` fragment). -/
theorem c4_where_clause_placeholder_count :
    ∀ (condition : Json) (allowedFields : List String) (sql : String)
      (params : List SqlParam),
      compile_condition condition allowedFields = .ok (sql, params) →
      countQ sql = params.length := by
  intro condition allowedFields sql params h
  exact (compile_count_aux (sizeOf condition)).1 condition allowedFields sql params
    (le_refl _) h

theorem c4_concrete_compile :
    compile_condition (.obj [("score", .obj [("$gte", .num 10)])]) ["score"] =
      .ok ("`score` >= ?", [.num 10]) := by
  have e1 : compileEntryResult "score" (.obj [("$gte", .num 10)]) ["score"] =
      .ok (["`score` >= ?"], [.num 10]) := by
    unfold compileEntryResult
    simp [show validate_identifier "score" = Except.ok () from rfl,
      show Json.asObjEntries (Json.obj [("$gte", Json.num 10)]) =
        some [("$gte", Json.num 10)] from rfl,
      show compileOps "score" [("$gte", Json.num 10)] =
        .ok (["`score` >= ?"], [SqlParam.num 10]) from rfl,
      show strStartsWith "$gte" "$" = true from rfl]
  have e2 : compileEntries [("score", Json.obj [("$gte", Json.num 10)])] ["score"] =
      .ok (["`score` >= ?"], [.num 10]) := by
    unfold compileEntries
    rw [e1]
    have e0 : compileEntries ([] : List (String × Json)) ["score"] = .ok ([], []) := by
      unfold compileEntries
      rfl
    rw [e0]
    simp
  unfold compile_condition
  rw [e2]
  simp [sjoin]

/-- Witness for C4 at a concrete filter: `{score: {$gte: 10}}` compiles to
one placeholder and one bind. -/
theorem c4_where_clause_placeholder_count_witness :
    compile_condition (.obj [("score", .obj [("$gte", .num 10)])]) ["score"] =
      .ok ("`score` >= ?", [.num 10]) ∧
    countQ "`score` >= ?" = [SqlParam.num 10].length :=
  ⟨c4_concrete_compile,
   c4_where_clause_placeholder_count (.obj [("score", .obj [("$gte", .num 10)])])
     ["score"] "`score` >= ?" [.num 10] c4_concrete_compile⟩

/- ### Apply-order resolution (`domain/schema/planner.rs` lines 118-176) -/

/-- `VisitState` of the DFS. -/
inductive VisitState where
  | visiting
  | visited
deriving DecidableEq, Repr

/-- The DFS state map (`HashMap<String, VisitState>`), as an association
list whose insert replaces the key. -/
abbrev VisitStates := List (String × VisitState)

/-- `HashMap::insert`: binds `t` and drops any previous binding. -/
def setState (states : VisitStates) (t : String) (s : VisitState) : VisitStates :=
  (t, s) :: states.filter (fun kv => kv.1 ≠ t)

/-- The non-self FK targets contributed by a field list: `Id` fields (after
`unwrap_base`) with a target table different from the owning table, in
field order — exactly the targets the `visit` loop recurses into. -/
def idTargetsOfFields (tableName : String)
    (fields : List (String × FieldDefinition)) : List String :=
  fields.filterMap (fun kv =>
    let base := kv.2.unwrapBase
    if base.fieldType == .id then
      match base.table with
      | some target => if target == tableName then none else some target
      | none => none
    else none)

mutual

/-- `visit` of `resolve_table_apply_order`: a Visited table is done, a
Visiting table is a cycle (validation error), otherwise the table is
marked Visiting, its non-self Id targets are visited, and the table is
marked Visited and appended to the order.  The fuel counts recursion
depth; `resolve_table_apply_order` supplies enough for the depth to be
bounded by the number of tables. -/
def visit (schema : List (String × TableDefinition)) :
    Nat → String → VisitStates → List String →
    Except AppError (VisitStates × List String)
  | 0, _, _, _ => .error (.internal "recursion fuel exhausted")
  | fuel + 1, tableName, states, ordered =>
    match states.lookup tableName with
    | some .visited => .ok (states, ordered)
    | some .visiting =>
      .error (.validation
        ("cyclic foreign-key dependency detected while applying schema at table '" ++
          tableName ++ "'"))
    | none =>
      match schema.lookup tableName with
      | none =>
        .error (.validation ("table '" ++ tableName ++
          "' referenced in dependency resolution was not found"))
      | some td =>
        match visitFields schema fuel tableName td.fields
            (setState states tableName .visiting) ordered with
        | .error e => .error e
        | .ok (states2, ordered2) =>
          .ok (setState states2 tableName .visited, ordered2 ++ [tableName])
termination_by fuel _ _ _ => (fuel, 0)

/-- The field loop of `visit`: skips non-Id fields, targets without a
table, and self references; recurses into every other target. -/
def visitFields (schema : List (String × TableDefinition)) (fuel : Nat)
    (tableName : String) :
    List (String × FieldDefinition) → VisitStates → List String →
    Except AppError (VisitStates × List String)
  | [], states, ordered => .ok (states, ordered)
  | (_, fd) :: rest, states, ordered =>
    let base := fd.unwrapBase
    if base.fieldType != .id then
      visitFields schema fuel tableName rest states ordered
    else
      match base.table with
      | none => visitFields schema fuel tableName rest states ordered
      | some target =>
        if target == tableName then
          visitFields schema fuel tableName rest states ordered
        else
          match visit schema fuel target states ordered with
          | .error e => .error e
          | .ok (states2, ordered2) =>
            visitFields schema fuel tableName rest states2 ordered2
termination_by fields _ _ => (fuel, fields.length + 1)

end

/-- The `for table_name in schema.tables.keys()` loop of
`resolve_table_apply_order`. -/
def resolveLoop (schema : List (String × TableDefinition)) (fuel : Nat) :
    List String → VisitStates → List String →
    Except AppError (VisitStates × List String)
  | [], states, ordered => .ok (states, ordered)
  | t :: rest, states, ordered =>
    match visit schema fuel t states ordered with
    | .error e => .error e
    | .ok (states2, ordered2) => resolveLoop schema fuel rest states2 ordered2

/-- `resolve_table_apply_order`: DFS from every table key, in key order
(`BTreeMap` iteration).  The fuel `|tables| + 1` bounds the recursion
depth: every nested call stacks one more distinct Visiting table. -/
def resolve_table_apply_order (schema : List (String × TableDefinition)) :
    Except AppError (List String) :=
  match resolveLoop schema (schema.length + 1) (schema.map Prod.fst) [] [] with
  | .error e => .error e
  | .ok (_, ordered) => .ok ordered

/-- The non-self FK edge relation of a schema: `t` references `u ≠ t`
through an Id field of its table definition. -/
def schemaEdge (schema : List (String × TableDefinition)) (t u : String) : Prop :=
  ∃ td, schema.lookup t = some td ∧ u ∈ idTargetsOfFields t td.fields

/-- Number of Visiting entries in the state map. -/
def countVisiting (states : VisitStates) : Nat :=
  states.countP (fun kv => kv.2 == .visiting)

theorem lookupNoneIff {α : Type} (s : List (String × α)) (t : String) :
    s.lookup t = none ↔ ∀ kv ∈ s, kv.1 ≠ t := by
  induction s with
  | nil => simp
  | cons kv rest ih =>
    obtain ⟨k, v⟩ := kv
    simp only [List.lookup]
    by_cases hk : (t == k) = true
    · have hkt : t = k := eq_of_beq hk
      subst hkt
      simp
    · have hk2 : (t == k) = false := by
        cases hb : (t == k) with
        | true => exact absurd hb hk
        | false => rfl
      have hkt : k ≠ t := by
        intro hEq
        subst hEq
        simp at hk2
      simp only [hk2, ih, List.mem_cons]
      constructor
      · intro hr kv2 hm
        rcases hm with hEq | hm
        · subst hEq; exact hkt
        · exact hr kv2 hm
      · intro hr kv2 hm
        exact hr kv2 (Or.inr hm)

theorem lookup_mem {α : Type} (s : List (String × α)) (t : String) (v : α)
    (h : s.lookup t = some v) : (t, v) ∈ s := by
  induction s with
  | nil => simp [List.lookup] at h
  | cons kv rest ih =>
    obtain ⟨k, w⟩ := kv
    simp only [List.lookup] at h
    by_cases hk : (t == k) = true
    · have hkt : t = k := eq_of_beq hk
      subst hkt
      simp only [beq_self_eq_true] at h
      injection h with h2
      subst h2
      simp
    · have hk2 : (t == k) = false := by
        cases hb : (t == k) with
        | true => exact absurd hb hk
        | false => rfl
      simp only [hk2] at h
      exact List.mem_cons_of_mem _ (ih h)

theorem mem_keys_of_lookup {α : Type} (s : List (String × α)) (t : String) (v : α)
    (h : s.lookup t = some v) : t ∈ s.map Prod.fst := by
  have := lookup_mem s t v h
  exact List.mem_map.mpr ⟨(t, v), this, rfl⟩

theorem lookup_isSome_of_mem_keys {α : Type} (s : List (String × α)) (t : String)
    (h : t ∈ s.map Prod.fst) : ∃ v, s.lookup t = some v := by
  cases hl : s.lookup t with
  | some v => exact ⟨v, rfl⟩
  | none =>
    obtain ⟨kv, hm, he⟩ := List.mem_map.mp h
    exact absurd he ((lookupNoneIff s t).mp hl kv hm)

theorem setState_lookup_self (s : VisitStates) (t : String) (v : VisitState) :
    (setState s t v).lookup t = some v := by
  simp [setState, List.lookup]

theorem lookup_filter_ne (s : VisitStates) (t u : String) (h : u ≠ t) :
    (s.filter (fun kv => kv.1 ≠ t)).lookup u = s.lookup u := by
  induction s with
  | nil => rfl
  | cons kv rest ih =>
    obtain ⟨k, w⟩ := kv
    by_cases hk : k = t
    · subst hk
      have hku : (u == k) = false := by
        simp only [beq_eq_false_iff_ne, ne_eq]
        exact h
      simp only [List.filter]
      rw [show (decide ((k, w).1 ≠ k) = false) by simp]
      simp only [List.lookup, hku]
      exact ih
    · simp only [List.filter]
      rw [show (decide ((k, w).1 ≠ t) = true) by simp [hk]]
      simp only [List.lookup]
      by_cases hku : (u == k) = true
      · simp only [hku]
      · have hku2 : (u == k) = false := by
          cases hb : (u == k) with
          | true => exact absurd hb hku
          | false => rfl
        simp only [hku2]
        exact ih

theorem setState_lookup_ne (s : VisitStates) (t u : String) (v : VisitState)
    (h : u ≠ t) : (setState s t v).lookup u = s.lookup u := by
  unfold setState
  have htu : (u == t) = false := by
    simp only [beq_eq_false_iff_ne, ne_eq]
    exact h
  simp only [List.lookup, htu]
  exact lookup_filter_ne s t u h

theorem setState_keys_nodup (s : VisitStates) (t : String) (v : VisitState)
    (h : (s.map Prod.fst).Nodup) :
    ((setState s t v).map Prod.fst).Nodup := by
  unfold setState
  simp only [List.map_cons, List.nodup_cons]
  constructor
  · intro hmem
    obtain ⟨kv, hkv, he⟩ := List.mem_map.mp hmem
    have h2 := List.of_mem_filter hkv
    simp only [decide_eq_true_eq] at h2
    exact h2 he
  · exact h.sublist ((List.filter_sublist s).map Prod.fst)

theorem setState_keys_sub (s : VisitStates) (t : String) (v : VisitState)
    (u : String) (h : u ∈ (setState s t v).map Prod.fst) :
    u = t ∨ u ∈ s.map Prod.fst := by
  unfold setState at h
  simp only [List.map_cons, List.mem_cons] at h
  rcases h with h | h
  · left; exact h
  · right
    obtain ⟨kv, hkv, he⟩ := List.mem_map.mp h
    exact List.mem_map.mpr ⟨kv, List.mem_of_mem_filter hkv, he⟩

theorem count_setVisiting (s : VisitStates) (t : String)
    (h : s.lookup t = none) :
    countVisiting (setState s t .visiting) = countVisiting s + 1 := by
  unfold setState countVisiting
  have hfs : s.filter (fun kv => kv.1 ≠ t) = s := by
    apply List.filter_eq_self.mpr
    intro kv hkv
    simpa using (lookupNoneIff s t).mp h kv hkv
  rw [hfs, List.countP_cons]
  simp

theorem count_setVisited (s : VisitStates) (t : String)
    (hn : (s.map Prod.fst).Nodup) (h : s.lookup t = some .visiting) :
    countVisiting (setState s t .visited) + 1 = countVisiting s := by
  unfold setState countVisiting
  rw [List.countP_cons]
  simp only [show ((((t, VisitState.visited) : String × VisitState).2 ==
    VisitState.visiting) = false) from rfl, if_false, Nat.add_zero]
  induction s with
  | nil => simp [List.lookup] at h
  | cons kv rest ih =>
    obtain ⟨k, w⟩ := kv
    simp only [List.lookup] at h
    by_cases hk : (t == k) = true
    · have hkt : t = k := eq_of_beq hk
      subst hkt
      simp only [beq_self_eq_true] at h
      have hw : w = .visiting := by simpa using h
      subst hw
      simp only [List.filter]
      rw [show (decide ((t, VisitState.visiting).1 ≠ t) = false) by simp]
      have hrest : rest.filter (fun kv => kv.1 ≠ t) = rest := by
        apply List.filter_eq_self.mpr
        intro kv2 hkv2
        simp only [List.map_cons, List.nodup_cons] at hn
        have hmem : kv2.1 ∈ rest.map Prod.fst := List.mem_map.mpr ⟨kv2, hkv2, rfl⟩
        simp only [decide_eq_true_eq]
        intro hEq
        rw [hEq] at hmem
        exact hn.1 hmem
      rw [hrest, List.countP_cons]
      simp
    · have hk2 : (t == k) = false := by
        cases hb : (t == k) with
        | true => exact absurd hb hk
        | false => rfl
      have hkt : k ≠ t := by
        intro hEq
        subst hEq
        simp at hk2
      simp only [hk2] at h
      simp only [List.map_cons, List.nodup_cons] at hn
      have := ih hn.2 h
      simp only [List.filter]
      rw [show (decide ((k, w).1 ≠ t) = true) by simp [hkt]]
      rw [List.countP_cons, List.countP_cons]
      omega

theorem nodup_subset_length {l1 l2 : List String} (h1 : l1.Nodup)
    (hsub : ∀ x ∈ l1, x ∈ l2) : l1.length ≤ l2.length := by
  classical
  calc l1.length = l1.toFinset.card := (List.toFinset_card_of_nodup h1).symm
    _ ≤ l2.toFinset.card := by
        apply Finset.card_le_card
        intro x hx
        exact List.mem_toFinset.mpr (hsub x (List.mem_toFinset.mp hx))
    _ ≤ l2.length := l2.toFinset_card_le

/-- Invariant of the DFS state: state keys are unique table keys, the
Visited set is exactly the emitted order, the order has no duplicates,
and every emitted table's non-self FK targets appear strictly before it. -/
structure StInv (schema : List (String × TableDefinition))
    (states : VisitStates) (ordered : List String) : Prop where
  nodupKeys : (states.map Prod.fst).Nodup
  keysSub : ∀ k, k ∈ states.map Prod.fst → k ∈ schema.map Prod.fst
  visitedIff : ∀ u, states.lookup u = some .visited ↔ u ∈ ordered
  nodupOrdered : ordered.Nodup
  topo : ∀ p u s, ordered = p ++ u :: s → ∀ td, schema.lookup u = some td →
    ∀ v, v ∈ idTargetsOfFields u td.fields → v ∈ p

theorem StInv.count_le {schema : List (String × TableDefinition)}
    {states : VisitStates} {ordered : List String}
    (h : StInv schema states ordered) : countVisiting states ≤ schema.length := by
  have h1 : countVisiting states ≤ states.length := List.countP_le_length _
  have h2 : (states.map Prod.fst).length ≤ (schema.map Prod.fst).length :=
    nodup_subset_length h.nodupKeys h.keysSub
  simp only [List.length_map] at h2
  omega

theorem snoc_split {α : Type} (l : List α) (x : α) (p : List α) (u : α)
    (s : List α) (h : l ++ [x] = p ++ u :: s) :
    (p = l ∧ u = x ∧ s = []) ∨ (∃ s', l = p ++ u :: s' ∧ s = s' ++ [x]) := by
  rcases List.append_eq_append_iff.mp h with ⟨a', ha1, ha2⟩ | ⟨c', hc1, hc2⟩
  · cases a' with
    | nil =>
      left
      simp only [List.append_nil] at ha1
      simp only [List.nil_append] at ha2
      have h1 : x = u ∧ [] = s := by
        injection ha2 with i1 i2
        exact ⟨i1, i2⟩
      exact ⟨ha1, h1.1.symm, h1.2.symm⟩
    | cons y ys =>
      exfalso
      have hlen : ([x] : List α).length = ((y :: ys) ++ u :: s).length := by
        rw [ha2]
      simp at hlen
  · cases c' with
    | nil =>
      left
      simp only [List.append_nil] at hc1
      simp only [List.nil_append] at hc2
      have h1 : u = x ∧ s = [] := by
        injection hc2 with i1 i2
        exact ⟨i1, i2⟩
      exact ⟨hc1.symm, h1.1, h1.2⟩
    | cons y ys =>
      right
      have h1 : u = y ∧ s = ys ++ [x] := by
        injection hc2 with i1 i2
        exact ⟨i1, i2⟩
      refine ⟨ys, ?_, h1.2⟩
      rw [hc1, h1.1]

theorem setVisiting_StInv {schema : List (String × TableDefinition)}
    {states : VisitStates} {ordered : List String} {tableName : String}
    {td : TableDefinition}
    (hinv : StInv schema states ordered)
    (hls : states.lookup tableName = none)
    (hlt : schema.lookup tableName = some td) :
    StInv schema (setState states tableName .visiting) ordered := by
  refine ⟨setState_keys_nodup _ _ _ hinv.nodupKeys, ?_, ?_, hinv.nodupOrdered,
    hinv.topo⟩
  · intro k hk
    rcases setState_keys_sub _ _ _ _ hk with hEq | hm
    · subst hEq
      exact mem_keys_of_lookup schema k td hlt
    · exact hinv.keysSub k hm
  · intro u
    by_cases hu : u = tableName
    · subst hu
      rw [setState_lookup_self]
      constructor
      · intro hEq; simp at hEq
      · intro hmem
        exfalso
        have := (hinv.visitedIff u).mpr hmem
        rw [hls] at this
        cases this
    · rw [setState_lookup_ne _ _ _ _ hu]
      exact hinv.visitedIff u

/-- Specification of `visit fuel`: validation-only errors, and on success
the invariant is preserved, the table ends Visited, the Visiting count is
unchanged, Visiting/Visited marks survive, and the order only grows. -/
def visitP (schema : List (String × TableDefinition)) (fuel : Nat) : Prop :=
  ∀ (tableName : String) (states : VisitStates) (ordered : List String),
    (schema.map Prod.fst).Nodup →
    StInv schema states ordered →
    schema.length + 1 ≤ fuel + countVisiting states →
    (∀ e, visit schema fuel tableName states ordered = .error e →
      ∃ msg, e = .validation msg) ∧
    (∀ states2 ordered2,
      visit schema fuel tableName states ordered = .ok (states2, ordered2) →
      StInv schema states2 ordered2 ∧
      states2.lookup tableName = some .visited ∧
      countVisiting states2 = countVisiting states ∧
      (∀ u, states.lookup u = some .visiting → states2.lookup u = some .visiting) ∧
      (∀ u, states.lookup u = some .visited → states2.lookup u = some .visited) ∧
      (∃ newly, ordered2 = ordered ++ newly))

/-- Specification of the `visitFields` loop: like `visitP`, and on success
every non-self Id target of the processed field list ends Visited. -/
def visitFieldsP (schema : List (String × TableDefinition)) (fuel : Nat) : Prop :=
  ∀ (tableName : String) (fields : List (String × FieldDefinition))
    (states : VisitStates) (ordered : List String),
    (schema.map Prod.fst).Nodup →
    StInv schema states ordered →
    schema.length + 1 ≤ fuel + countVisiting states →
    (∀ e, visitFields schema fuel tableName fields states ordered = .error e →
      ∃ msg, e = .validation msg) ∧
    (∀ states2 ordered2,
      visitFields schema fuel tableName fields states ordered = .ok (states2, ordered2) →
      StInv schema states2 ordered2 ∧
      countVisiting states2 = countVisiting states ∧
      (∀ u, states.lookup u = some .visiting → states2.lookup u = some .visiting) ∧
      (∀ u, states.lookup u = some .visited → states2.lookup u = some .visited) ∧
      (∃ newly, ordered2 = ordered ++ newly) ∧
      (∀ v ∈ idTargetsOfFields tableName fields, states2.lookup v = some .visited))

theorem visitFieldsP_of_visitP (schema : List (String × TableDefinition))
    (fuel : Nat) (hv : visitP schema fuel) : visitFieldsP schema fuel := by
  intro tableName fields
  induction fields with
  | nil =>
    intro states ordered hnd hinv hsum
    have hEqn : visitFields schema fuel tableName [] states ordered =
        .ok (states, ordered) := by
      rw [visitFields]
    constructor
    · intro e he
      rw [hEqn] at he
      cases he
    · intro states2 ordered2 h
      rw [hEqn] at h
      injection h with h1
      injection h1 with h2 h3
      subst h2
      subst h3
      exact ⟨hinv, rfl, fun u hu => hu, fun u hu => hu, ⟨[], by simp⟩,
        by intro v hv2; simp [idTargetsOfFields] at hv2⟩
  | cons field rest ih =>
    obtain ⟨fname, fd⟩ := field
    intro states ordered hnd hinv hsum
    by_cases hid : (fd.unwrapBase.fieldType != .id) = true
    · have hEqn : visitFields schema fuel tableName ((fname, fd) :: rest)
          states ordered = visitFields schema fuel tableName rest states ordered := by
        rw [visitFields]
        simp only [hid, if_true]
      have htg : idTargetsOfFields tableName ((fname, fd) :: rest) =
          idTargetsOfFields tableName rest := by
        unfold idTargetsOfFields
        rw [List.filterMap_cons]
        have hne : fd.unwrapBase.fieldType ≠ FieldType.id := by
          simpa using hid
        simp [hne]
      rw [hEqn, htg]
      exact ih states ordered hnd hinv hsum
    · have hid2 : fd.unwrapBase.fieldType = .id := by
        simp only [bne_iff_ne, ne_eq, not_not] at hid
        exact hid
      cases hbt : fd.unwrapBase.table with
      | none =>
        have hEqn : visitFields schema fuel tableName ((fname, fd) :: rest)
            states ordered = visitFields schema fuel tableName rest states ordered := by
          rw [visitFields]
          simp only [hid2, hbt]
          simp
        have htg : idTargetsOfFields tableName ((fname, fd) :: rest) =
            idTargetsOfFields tableName rest := by
          unfold idTargetsOfFields
          rw [List.filterMap_cons]
          simp [hid2, hbt]
        rw [hEqn, htg]
        exact ih states ordered hnd hinv hsum
      | some target =>
        by_cases hself : (target == tableName) = true
        · have hEqn : visitFields schema fuel tableName ((fname, fd) :: rest)
              states ordered = visitFields schema fuel tableName rest states ordered := by
            rw [visitFields]
            simp only [hid2, hbt]
            simp [hself]
          have htg : idTargetsOfFields tableName ((fname, fd) :: rest) =
              idTargetsOfFields tableName rest := by
            unfold idTargetsOfFields
            rw [List.filterMap_cons]
            simp [hid2, hbt, hself]
          rw [hEqn, htg]
          exact ih states ordered hnd hinv hsum
        · have hself2 : (target == tableName) = false := by
            cases hb : (target == tableName) with
            | true => exact absurd hb hself
            | false => rfl
          have hEqn : visitFields schema fuel tableName ((fname, fd) :: rest)
              states ordered =
              (match visit schema fuel target states ordered with
               | .error e => .error e
               | .ok (states2, ordered2) =>
                 visitFields schema fuel tableName rest states2 ordered2) := by
            rw [visitFields]
            simp only [hid2, hbt]
            simp [hself2]
          have htg : idTargetsOfFields tableName ((fname, fd) :: rest) =
              target :: idTargetsOfFields tableName rest := by
            unfold idTargetsOfFields
            rw [List.filterMap_cons]
            simp [hid2, hbt, hself2]
          rw [hEqn, htg]
          cases hvt : visit schema fuel target states ordered with
          | error e0 =>
            constructor
            · intro e he
              simp only [] at he
              injection he with h1
              subst h1
              exact (hv target states ordered hnd hinv hsum).1 e0 hvt
            · intro states2 ordered2 h
              simp only [] at h
              cases h
          | ok pair =>
            obtain ⟨s2, o2⟩ := pair
            obtain ⟨hinv2, hvd2, hcnt2, hpVisiting, hpVisited, hext⟩ :=
              (hv target states ordered hnd hinv hsum).2 s2 o2 hvt
            have hsum2 : schema.length + 1 ≤ fuel + countVisiting s2 := by
              omega
            have ihrest := ih s2 o2 hnd hinv2 hsum2
            constructor
            · intro e he
              simp only [] at he
              exact ihrest.1 e he
            · intro states3 ordered3 h3
              simp only [] at h3
              obtain ⟨hinv3, hcnt3, hpVisiting3, hpVisited3, hext3, htargets3⟩ :=
                ihrest.2 states3 ordered3 h3
              refine ⟨hinv3, by omega, fun u hu => hpVisiting3 u (hpVisiting u hu),
                fun u hu => hpVisited3 u (hpVisited u hu), ?_, ?_⟩
              · obtain ⟨n1, h1⟩ := hext
                obtain ⟨n2, h2⟩ := hext3
                exact ⟨n1 ++ n2, by rw [h2, h1, List.append_assoc]⟩
              · intro v hv2
                rcases List.mem_cons.mp hv2 with hEq | hm
                · subst hEq
                  exact hpVisited3 v hvd2
                · exact htargets3 v hm

theorem visitP_all (schema : List (String × TableDefinition)) :
    ∀ fuel, visitP schema fuel := by
  intro fuel
  induction fuel with
  | zero =>
    intro tableName states ordered hnd hinv hsum
    exact absurd hsum (by have := hinv.count_le; omega)
  | succ n ih =>
    have hvf : visitFieldsP schema n := visitFieldsP_of_visitP schema n ih
    intro tableName states ordered hnd hinv hsum
    cases hls : states.lookup tableName with
    | some st =>
      cases st with
      | visited =>
        have hEqn : visit schema (n + 1) tableName states ordered =
            .ok (states, ordered) := by
          rw [visit]
          simp [hls]
        rw [hEqn]
        constructor
        · intro e he
          cases he
        · intro states2 ordered2 h
          injection h with h1
          injection h1 with h2 h3
          subst h2
          subst h3
          exact ⟨hinv, hls, rfl, fun u hu => hu, fun u hu => hu, ⟨[], by simp⟩⟩
      | visiting =>
        have hEqn : visit schema (n + 1) tableName states ordered =
            .error (.validation
              ("cyclic foreign-key dependency detected while applying schema at table '" ++
                tableName ++ "'")) := by
          rw [visit]
          simp [hls]
        rw [hEqn]
        constructor
        · intro e he
          injection he with h1
          exact ⟨_, h1.symm⟩
        · intro states2 ordered2 h
          cases h
    | none =>
      cases hlt : schema.lookup tableName with
      | none =>
        have hEqn : visit schema (n + 1) tableName states ordered =
            .error (.validation ("table '" ++ tableName ++
              "' referenced in dependency resolution was not found")) := by
          rw [visit]
          simp [hls, hlt]
        rw [hEqn]
        constructor
        · intro e he
          injection he with h1
          exact ⟨_, h1.symm⟩
        · intro states2 ordered2 h
          cases h
      | some td =>
        have hinv1 := setVisiting_StInv hinv hls hlt
        have hcnt1 := count_setVisiting states tableName hls
        have hsum1 : schema.length + 1 ≤
            n + countVisiting (setState states tableName .visiting) := by
          omega
        have hspec := hvf tableName td.fields
          (setState states tableName .visiting) ordered hnd hinv1 hsum1
        have hEqn : visit schema (n + 1) tableName states ordered =
            (match visitFields schema n tableName td.fields
                (setState states tableName .visiting) ordered with
             | .error e => .error e
             | .ok (states2, ordered2) =>
               .ok (setState states2 tableName .visited, ordered2 ++ [tableName])) := by
          rw [visit]
          simp [hls, hlt]
        rw [hEqn]
        cases hvfr : visitFields schema n tableName td.fields
            (setState states tableName .visiting) ordered with
        | error e0 =>
          constructor
          · intro e he
            simp only [] at he
            injection he with h1
            subst h1
            exact hspec.1 e0 hvfr
          · intro states2 ordered2 h
            simp only [] at h
            cases h
        | ok pair =>
          obtain ⟨s2, o2⟩ := pair
          obtain ⟨hinv2, hcnt2, hpVisiting, hpVisited, hext2, htargets⟩ :=
            hspec.2 s2 o2 hvfr
          constructor
          · intro e he
            simp only [] at he
            cases he
          · intro states3 ordered3 h
            simp only [] at h
            injection h with h1
            injection h1 with h2 h3
            subst h2
            subst h3
            have hvis1 : (setState states tableName .visiting).lookup tableName =
                some .visiting := setState_lookup_self _ _ _
            have hvisiting2 : s2.lookup tableName = some .visiting :=
              hpVisiting tableName hvis1
            have htnot : tableName ∉ o2 := by
              intro hmem
              have hx := (hinv2.visitedIff tableName).mpr hmem
              rw [hvisiting2] at hx
              simp at hx
            refine ⟨?_, setState_lookup_self _ _ _, ?_, ?_, ?_, ?_⟩
            · refine ⟨setState_keys_nodup _ _ _ hinv2.nodupKeys, ?_, ?_, ?_, ?_⟩
              · intro k hk
                rcases setState_keys_sub _ _ _ _ hk with hEq | hm
                · subst hEq
                  exact mem_keys_of_lookup schema k td hlt
                · exact hinv2.keysSub k hm
              · intro u
                by_cases hu : u = tableName
                · subst hu
                  rw [setState_lookup_self]
                  simp
                · rw [setState_lookup_ne _ _ _ _ hu]
                  rw [hinv2.visitedIff u]
                  simp [List.mem_append, hu]
              · exact hinv2.nodupOrdered.append (List.nodup_singleton _) (by
                  intro a ha hb
                  simp at hb
                  subst hb
                  exact htnot ha)
              · intro p u s hsplit td' hlu' v hv2
                rcases snoc_split o2 tableName p u s hsplit with
                  ⟨hp, hu, hs⟩ | ⟨s', hs1, hs2⟩
                · subst hu
                  subst hp
                  have htd : td' = td := by
                    rw [hlt] at hlu'
                    injection hlu' with hx
                    exact hx.symm
                  subst htd
                  exact (hinv2.visitedIff v).mp (htargets v hv2)
                · exact hinv2.topo p u s' hs1 td' hlu' v hv2
            · have h1 := count_setVisited s2 tableName hinv2.nodupKeys hvisiting2
              omega
            · intro u hu
              have hune : u ≠ tableName := by
                intro hEq
                subst hEq
                rw [hls] at hu
                cases hu
              rw [setState_lookup_ne _ _ _ _ hune]
              exact hpVisiting u (by rw [setState_lookup_ne _ _ _ _ hune]; exact hu)
            · intro u hu
              have hune : u ≠ tableName := by
                intro hEq
                subst hEq
                rw [hls] at hu
                cases hu
              rw [setState_lookup_ne _ _ _ _ hune]
              exact hpVisited u (by rw [setState_lookup_ne _ _ _ _ hune]; exact hu)
            · obtain ⟨n2, h2⟩ := hext2
              exact ⟨n2 ++ [tableName], by rw [h2, List.append_assoc]⟩

theorem not_self_mem_idTargets (tableName : String)
    (fields : List (String × FieldDefinition)) :
    tableName ∉ idTargetsOfFields tableName fields := by
  intro hmem
  unfold idTargetsOfFields at hmem
  rw [List.mem_filterMap] at hmem
  obtain ⟨kv, _, hf⟩ := hmem
  simp only [] at hf
  by_cases h1 : (kv.2.unwrapBase.fieldType == FieldType.id) = true
  · simp only [h1, if_true] at hf
    cases h2 : kv.2.unwrapBase.table with
    | none => simp [h2] at hf
    | some target =>
      simp only [h2] at hf
      by_cases h3 : (target == tableName) = true
      · simp [h3] at hf
      · have h3f : (target == tableName) = false := by
          cases hb : (target == tableName) with
          | true => exact absurd hb h3
          | false => rfl
        simp only [h3f, Bool.false_eq_true, if_false] at hf
        injection hf with h4
        rw [h4] at h3f
        simp at h3f
  · have h1f : (kv.2.unwrapBase.fieldType == FieldType.id) = false := by
      cases hb : (kv.2.unwrapBase.fieldType == FieldType.id) with
      | true => exact absurd hb h1
      | false => rfl
    simp [h1f] at hf

theorem visitFields_no_targets (schema : List (String × TableDefinition))
    (fuel : Nat) (tableName : String) :
    ∀ (fields : List (String × FieldDefinition)) (states : VisitStates)
      (ordered : List String),
      idTargetsOfFields tableName fields = [] →
      visitFields schema fuel tableName fields states ordered =
        .ok (states, ordered) := by
  intro fields
  induction fields with
  | nil =>
    intro states ordered _
    rw [visitFields]
  | cons field rest ih =>
    obtain ⟨fname, fd⟩ := field
    intro states ordered h
    unfold idTargetsOfFields at h
    rw [List.filterMap_cons] at h
    by_cases hid : (fd.unwrapBase.fieldType != .id) = true
    · rw [visitFields]
      simp only [hid, if_true]
      apply ih
      have hne : fd.unwrapBase.fieldType ≠ FieldType.id := by simpa using hid
      simp only [] at h
      simp only [show ((fd.unwrapBase.fieldType == FieldType.id) = false) by
        simpa using hne, Bool.false_eq_true, if_false] at h
      exact h
    · have hid2 : fd.unwrapBase.fieldType = .id := by
        simp only [bne_iff_ne, ne_eq, not_not] at hid
        exact hid
      cases hbt : fd.unwrapBase.table with
      | none =>
        rw [visitFields]
        simp only [hid2, hbt]
        simp only [bne_self_eq_false, Bool.false_eq_true, if_false]
        apply ih
        simp only [] at h
        simp only [hid2, hbt, beq_self_eq_true, if_true] at h
        exact h
      | some target =>
        by_cases hself : (target == tableName) = true
        · rw [visitFields]
          simp only [hid2, hbt]
          simp only [bne_self_eq_false, Bool.false_eq_true, if_false, hself, if_true]
          apply ih
          simp only [] at h
          simp only [hid2, hbt, beq_self_eq_true, if_true, hself] at h
          exact h
        · exfalso
          have hself2 : (target == tableName) = false := by
            cases hb : (target == tableName) with
            | true => exact absurd hb hself
            | false => rfl
          simp only [] at h
          simp only [hid2, hbt, beq_self_eq_true, if_true, hself2,
            Bool.false_eq_true, if_false] at h
          cases h

theorem resolveLoop_spec (schema : List (String × TableDefinition)) (fuel : Nat) :
    ∀ (keys : List String) (states : VisitStates) (ordered : List String),
      (schema.map Prod.fst).Nodup →
      StInv schema states ordered →
      schema.length + 1 ≤ fuel + countVisiting states →
      (∀ e, resolveLoop schema fuel keys states ordered = .error e →
        ∃ msg, e = .validation msg) ∧
      (∀ states2 ordered2,
        resolveLoop schema fuel keys states ordered = .ok (states2, ordered2) →
        StInv schema states2 ordered2 ∧
        countVisiting states2 = countVisiting states ∧
        (∀ u, states.lookup u = some .visited → states2.lookup u = some .visited) ∧
        (∀ t ∈ keys, states2.lookup t = some .visited)) := by
  intro keys
  induction keys with
  | nil =>
    intro states ordered hnd hinv hsum
    constructor
    · intro e he
      rw [resolveLoop] at he
      cases he
    · intro states2 ordered2 h
      rw [resolveLoop] at h
      injection h with h1
      injection h1 with h2 h3
      subst h2
      subst h3
      exact ⟨hinv, rfl, fun u hu => hu, by simp⟩
  | cons t rest ih =>
    intro states ordered hnd hinv hsum
    have hvP := visitP_all schema fuel t states ordered hnd hinv hsum
    rw [resolveLoop]
    cases hvt : visit schema fuel t states ordered with
    | error e0 =>
      constructor
      · intro e he
        simp only [] at he
        injection he with h1
        subst h1
        exact hvP.1 e0 hvt
      · intro states2 ordered2 h
        simp only [] at h
        cases h
    | ok pair =>
      obtain ⟨s2, o2⟩ := pair
      obtain ⟨hinv2, hvd2, hcnt2, _, hpVisited, _⟩ := hvP.2 s2 o2 hvt
      have hsum2 : schema.length + 1 ≤ fuel + countVisiting s2 := by omega
      have ihrest := ih s2 o2 hnd hinv2 hsum2
      constructor
      · intro e he
        simp only [] at he
        exact ihrest.1 e he
      · intro states2 ordered2 h
        simp only [] at h
        obtain ⟨hinv3, hcnt3, hpVisited3, hkeys3⟩ := ihrest.2 states2 ordered2 h
        refine ⟨hinv3, by omega, fun u hu => hpVisited3 u (hpVisited u hu), ?_⟩
        intro t' ht'
        rcases List.mem_cons.mp ht' with hEq | hm
        · subst hEq
          exact hpVisited3 t' hvd2
        · exact hkeys3 t' hm

theorem resolveLoop_self_only (schema : List (String × TableDefinition))
    (hall : ∀ t td, schema.lookup t = some td →
      idTargetsOfFields t td.fields = []) (fuel : Nat) :
    ∀ (keys : List String) (states : VisitStates) (ordered : List String),
      (∀ t ∈ keys, ∃ td, schema.lookup t = some td) →
      (∀ u, states.lookup u ≠ some .visiting) →
      (∀ u, states.lookup u = some .visited → u ∈ ordered) →
      ∃ states2 ordered2,
        resolveLoop schema (fuel + 1) keys states ordered = .ok (states2, ordered2) ∧
        (∀ t ∈ keys, t ∈ ordered2) ∧ (∀ x ∈ ordered, x ∈ ordered2) := by
  intro keys
  induction keys with
  | nil =>
    intro states ordered _ _ _
    exact ⟨states, ordered, by rw [resolveLoop], by simp, fun x hx => hx⟩
  | cons t rest ih =>
    intro states ordered hk hnv hvo
    obtain ⟨td, htd⟩ := hk t (by simp)
    cases hls : states.lookup t with
    | some st =>
      cases st with
      | visiting => exact absurd hls (hnv t)
      | visited =>
        have hEqn : visit schema (fuel + 1) t states ordered =
            .ok (states, ordered) := by
          rw [visit]
          simp [hls]
        rw [resolveLoop, hEqn]
        simp only []
        obtain ⟨s2, o2, hok, hkeys, hord⟩ := ih states ordered
          (fun t' ht' => hk t' (List.mem_cons_of_mem _ ht')) hnv hvo
        refine ⟨s2, o2, hok, ?_, hord⟩
        intro t' ht'
        rcases List.mem_cons.mp ht' with hEq | hm
        · subst hEq
          exact hord t' (hvo t' hls)
        · exact hkeys t' hm
    | none =>
      have hEqn : visit schema (fuel + 1) t states ordered =
          .ok (setState (setState states t .visiting) t .visited,
            ordered ++ [t]) := by
        rw [visit]
        simp [hls, htd, visitFields_no_targets schema fuel t td.fields
          (setState states t .visiting) ordered (hall t td htd)]
      rw [resolveLoop, hEqn]
      simp only []
      have hnv2 : ∀ u, (setState (setState states t .visiting) t
          .visited).lookup u ≠ some .visiting := by
        intro u
        by_cases hu : u = t
        · subst hu
          rw [setState_lookup_self]
          simp
        · rw [setState_lookup_ne _ _ _ _ hu, setState_lookup_ne _ _ _ _ hu]
          exact hnv u
      have hvo2 : ∀ u, (setState (setState states t .visiting) t
          .visited).lookup u = some .visited → u ∈ ordered ++ [t] := by
        intro u hu
        by_cases hut : u = t
        · subst hut
          simp
        · rw [setState_lookup_ne _ _ _ _ hut, setState_lookup_ne _ _ _ _ hut] at hu
          exact List.mem_append_left _ (hvo u hu)
      obtain ⟨s2, o2, hok, hkeys, hord⟩ := ih _ (ordered ++ [t])
        (fun t' ht' => hk t' (List.mem_cons_of_mem _ ht')) hnv2 hvo2
      refine ⟨s2, o2, hok, ?_, fun x hx => hord x (List.mem_append_left _ hx)⟩
      intro t' ht'
      rcases List.mem_cons.mp ht' with hEq | hm
      · subst hEq
        exact hord t' (by simp)
      · exact hkeys t' hm

theorem edge_rank_lt {schema : List (String × TableDefinition)}
    {states2 : VisitStates} {ordered2 : List String}
    (hinv : StInv schema states2 ordered2)
    (hvisall : ∀ t ∈ schema.map Prod.fst, t ∈ ordered2) :
    ∀ u v, schemaEdge schema u v →
      v ∈ ordered2 ∧ List.indexOf v ordered2 < List.indexOf u ordered2 := by
  intro u v hedge
  obtain ⟨td, hlu, htv⟩ := hedge
  have humem : u ∈ ordered2 := hvisall u (mem_keys_of_lookup schema u td hlu)
  obtain ⟨p, s, hsplit⟩ := List.append_of_mem humem
  have hv_in_p : v ∈ p := hinv.topo p u s hsplit td hlu v htv
  have hvmem : v ∈ ordered2 := by
    rw [hsplit]
    exact List.mem_append_left _ hv_in_p
  have hunotp : u ∉ p := by
    intro hup
    have hnd := hinv.nodupOrdered
    rw [hsplit] at hnd
    exact (List.nodup_append.mp hnd).2.2 hup (by simp)
  have hru : List.indexOf u ordered2 = p.length := by
    rw [hsplit, List.indexOf_append_of_not_mem hunotp, List.indexOf_cons_self]
    omega
  have hrv : List.indexOf v ordered2 = List.indexOf v p := by
    rw [hsplit, List.indexOf_append_of_mem hv_in_p]
  have hlt : List.indexOf v p < p.length := List.indexOf_lt_length.mpr hv_in_p
  exact ⟨hvmem, by omega⟩

theorem transGen_rank_lt {schema : List (String × TableDefinition)}
    {states2 : VisitStates} {ordered2 : List String}
    (hinv : StInv schema states2 ordered2)
    (hvisall : ∀ t ∈ schema.map Prod.fst, t ∈ ordered2) :
    ∀ u v, Relation.TransGen (schemaEdge schema) u v →
      v ∈ ordered2 ∧ List.indexOf v ordered2 < List.indexOf u ordered2 := by
  intro u v h
  induction h with
  | single h1 => exact edge_rank_lt hinv hvisall _ _ h1
  | tail _ hbc ih =>
    have h2 := edge_rank_lt hinv hvisall _ _ hbc
    exact ⟨h2.1, Nat.lt_trans h2.2 ih.2⟩

/-- **C8.** Apply-order resolution skips self-referencing Id fields: a
table's own name never appears among its resolved FK targets (so a
self-referential table never trips the Visiting check through its own
field); a schema in which every Id reference is self-referential (or
absent) resolves successfully with every table — including the
self-referential ones — in the output order; and any foreign-key cycle
through the non-self edge relation (necessarily spanning two or more
distinct tables) makes `resolve_table_apply_order` return a validation
error. -/
theorem c8_self_fk_skipped_cross_cycle_rejected
    (schema : List (String × TableDefinition))
    (hnd : (schema.map Prod.fst).Nodup) :
    (∀ t, ¬ schemaEdge schema t t) ∧
    ((∀ t td, schema.lookup t = some td → idTargetsOfFields t td.fields = []) →
      ∃ ordered, resolve_table_apply_order schema = .ok ordered ∧
        ∀ t ∈ schema.map Prod.fst, t ∈ ordered) ∧
    ((∃ t, Relation.TransGen (schemaEdge schema) t t) →
      ∃ msg, resolve_table_apply_order schema = .error (.validation msg)) := by
  refine ⟨?_, ?_, ?_⟩
  · intro t ht
    obtain ⟨td, _, hmem⟩ := ht
    exact not_self_mem_idTargets t td.fields hmem
  · intro hall
    obtain ⟨states2, ordered2, hok, hkeys, _⟩ :=
      resolveLoop_self_only schema hall schema.length (schema.map Prod.fst) [] []
        (fun t ht => lookup_isSome_of_mem_keys schema t ht)
        (by intro u h; simp [List.lookup] at h)
        (by intro u h; simp [List.lookup] at h)
    refine ⟨ordered2, ?_, hkeys⟩
    unfold resolve_table_apply_order
    rw [hok]
  · intro hcyc
    obtain ⟨t, htrans⟩ := hcyc
    have hinit : StInv schema [] [] := by
      refine ⟨by simp, by simp, ?_, by simp, ?_⟩
      · intro u
        simp [List.lookup]
      · intro p u s h
        exact absurd h (by simp)
    have hsum : schema.length + 1 ≤ (schema.length + 1) + countVisiting [] := by
      simp [countVisiting]
    have hspec := resolveLoop_spec schema (schema.length + 1)
      (schema.map Prod.fst) [] [] hnd hinit hsum
    cases hres : resolveLoop schema (schema.length + 1)
        (schema.map Prod.fst) [] [] with
    | error e =>
      obtain ⟨msg, hmsg⟩ := hspec.1 e hres
      subst hmsg
      refine ⟨msg, ?_⟩
      unfold resolve_table_apply_order
      rw [hres]
    | ok pair =>
      exfalso
      obtain ⟨s2, o2⟩ := pair
      obtain ⟨hinv2, _, _, hkv⟩ := hspec.2 s2 o2 hres
      have hvisall : ∀ u ∈ schema.map Prod.fst, u ∈ o2 :=
        fun u hu => (hinv2.visitedIff u).mp (hkv u hu)
      have hrank := transGen_rank_lt hinv2 hvisall t t htrans
      exact absurd hrank.2 (lt_irrefl _)

/-- A table whose only FK `Id` field points back at the table itself. -/
def c8SelfTd : TableDefinition :=
  ⟨[("id", .mk .id none [] none), ("manager", .mk .id (some "users") [] none)], []⟩

/-- One-table schema with a self-referential FK. -/
def c8SelfSchema : List (String × TableDefinition) := [("users", c8SelfTd)]

/-- Table `a` referencing table `b`. -/
def c8TdA : TableDefinition := ⟨[("partner", .mk .id (some "b") [] none)], []⟩

/-- Table `b` referencing table `a`. -/
def c8TdB : TableDefinition := ⟨[("partner", .mk .id (some "a") [] none)], []⟩

/-- Two-table schema forming a genuine cross-table FK cycle. -/
def c8CycleSchema : List (String × TableDefinition) := [("a", c8TdA), ("b", c8TdB)]

/-- C8 witness: the self-referential singleton schema satisfies the
hypotheses and resolves to an order containing its table, while the
two-table cycle schema carries a `TransGen` cycle and is rejected with a
validation error. -/
theorem c8_self_fk_skipped_cross_cycle_rejected_witness :
    ((c8SelfSchema.map Prod.fst).Nodup ∧ (c8CycleSchema.map Prod.fst).Nodup) ∧
    (∃ ordered, resolve_table_apply_order c8SelfSchema = .ok ordered ∧
      ∀ t ∈ c8SelfSchema.map Prod.fst, t ∈ ordered) ∧
    Relation.TransGen (schemaEdge c8CycleSchema) "a" "a" ∧
    (∃ msg, resolve_table_apply_order c8CycleSchema =
      .error (.validation msg)) := by
  have hnds : (c8SelfSchema.map Prod.fst).Nodup := by decide
  have hndc : (c8CycleSchema.map Prod.fst).Nodup := by decide
  have h1 := c8_self_fk_skipped_cross_cycle_rejected c8SelfSchema hnds
  have h2 := c8_self_fk_skipped_cross_cycle_rejected c8CycleSchema hndc
  have heab : schemaEdge c8CycleSchema "a" "b" := ⟨c8TdA, rfl, by decide⟩
  have heba : schemaEdge c8CycleSchema "b" "a" := ⟨c8TdB, rfl, by decide⟩
  have htrans : Relation.TransGen (schemaEdge c8CycleSchema) "a" "a" :=
    Relation.TransGen.tail (Relation.TransGen.single heab) heba
  have hall : ∀ t td, c8SelfSchema.lookup t = some td →
      idTargetsOfFields t td.fields = [] := by
    intro t td h
    cases hb : (t == "users") with
    | false =>
      exfalso
      unfold c8SelfSchema at h
      simp only [List.lookup, hb] at h
      cases h
    | true =>
      have ht : t = "users" := eq_of_beq hb
      subst ht
      unfold c8SelfSchema at h
      simp only [List.lookup, hb] at h
      injection h with h2
      subst h2
      decide
  exact ⟨⟨hnds, hndc⟩, h1.2.1 hall, htrans, h2.2.2 ⟨"a", htrans⟩⟩
